import Mathlib
set_option linter.unusedVariables false

/-!
Verification development for the munch library: a dict subclass with
attribute-style access (class Munch and its variants DefaultMunch and
DefaultFactoryMunch), the cycle-safe recursive converters munchify and
unmunchify, and the splitnest helper.  The Python source is embedded
shallowly: container state becomes explicit records of association
lists, the attribute protocol becomes explicit lookup functions, and
the identity-tracking conversion algorithm becomes a fuel-indexed
interpreter over an explicit heap of object identities.
-/

namespace MunchSpec

/-- Scalar (non-container) Python values: integers, strings, None and
opaque objects carried by identity.  The identity-bearing constructor
vobj models objects such as the fresh lists produced by a default
factory, where the claims talk about "the same object". -/
inductive Val where
  | vint : Int → Val
  | vstr : String → Val
  | vnone : Val
  | vobj : Nat → Val
deriving DecidableEq

/-- Python exception kinds that the embedded code can raise. -/
inductive PyErr where
  | keyError : String → PyErr
  | attributeError : String → PyErr
  | typeError : PyErr
  | valueError : PyErr
  | indexError : PyErr
deriving DecidableEq

/-- Association-list lookup by key, first match wins (the order of a
Python dict's underlying storage never has duplicate keys, but the
definition is total regardless). -/
def alook {α : Type} : List (String × α) → String → Option α
  | [], _ => none
  | (k, v) :: rest, key => if k = key then some v else alook rest key

/-- Python dict item write: overwrite an existing key in place (keeping
its insertion position) or append a new key at the end. -/
def dictWrite {α : Type} : List (String × α) → String → α → List (String × α)
  | [], key, v => [(key, v)]
  | (k, w) :: rest, key, v =>
    if k = key then (key, v) :: rest else (k, w) :: dictWrite rest key v

/-- Keys are pairwise distinct (what Python guarantees for the storage
of any real dict). -/
def nodupKeys : List String → Bool
  | [] => true
  | k :: ks => (!ks.contains k) && nodupKeys ks

/-- Names resolvable through the prototype chain of a Munch instance:
methods and reserved attributes defined on the class (or inherited from
dict), plus the slot names used by the variants.  Attribute access on
these names never reaches the mapping contents. -/
def munchReserved : List String :=
  ["__init__", "__getattr__", "__setattr__", "__delattr__", "toDict",
   "__dict__", "__repr__", "__dir__", "__getstate__", "__setstate__",
   "__members__", "fromDict", "copy", "update", "get", "setdefault",
   "toJSON", "fromJSON", "toYAML", "fromYAML", "keys", "values",
   "items", "pop", "popitem", "clear", "__getitem__", "__setitem__",
   "__delitem__", "__contains__", "__len__", "__iter__", "__eq__",
   "__missing__", "default_factory", "__default__", "__class__"]

/-- State of a base Munch instance: the dict contents plus the
instance-level attribute slots written by object.__setattr__ (slots are
only ever created for names already found in the prototype chain). -/
structure MunchState where
  contents : List (String × Val)
  slots : List (String × Val)
deriving DecidableEq

/-- Result of an attribute read: either a data value or a bound
method/class attribute (opaque for our purposes). -/
inductive AttrVal where
  | val : Val → AttrVal
  | classMethod : String → AttrVal
deriving DecidableEq

/-- Model of object.__getattribute__ restricted to what Munch uses:
instance slots shadow plain class attributes; a name in neither place
raises AttributeError (returned here as none). -/
def objGetattribute (s : MunchState) (k : String) : Option AttrVal :=
  match alook s.slots k with
  | some v => some (.val v)
  | none => if k ∈ munchReserved then some (.classMethod k) else none

/-- dict.__getitem__ on a base Munch: the stored value, else KeyError
(base Munch defines no __missing__). -/
def munch_getitem (s : MunchState) (k : String) : Except PyErr Val :=
  match alook s.contents k with
  | some v => .ok v
  | none => .error (.keyError k)

/-- Munch.__getattr__ combined with the normal attribute lookup: first
object.__getattribute__ (prototype chain), then self[k], and a KeyError
from the item read is re-raised as AttributeError(k). -/
def munch_getattr (s : MunchState) (k : String) : Except PyErr AttrVal :=
  match objGetattribute s k with
  | some a => .ok a
  | none =>
    match munch_getitem s k with
    | .ok v => .ok (.val v)
    | .error _ => .error (.attributeError k)

/-- Munch (dict) item write: always succeeds on the base class. -/
def munch_setitem (s : MunchState) (k : String) (v : Val) : MunchState :=
  { s with contents := dictWrite s.contents k v }

/-- Munch.__setattr__: if the name is found in the prototype chain,
write an instance attribute slot; otherwise route the write to
self[k] = v (which on the base class cannot fail). -/
def munch_setattr (s : MunchState) (k : String) (v : Val) : MunchState :=
  match objGetattribute s k with
  | some _ => { s with slots := dictWrite s.slots k v }
  | none => munch_setitem s k v

/-- Munch.__setattr__ for an arbitrary subclass whose item write may
fail: the bare except around self[k] = v re-raises any failure as
AttributeError(k).  The subclass item-write behaviour is passed in as a
function returning either new contents or an error. -/
def munch_setattr_sub (setitem : String → Val → Except PyErr (List (String × Val)))
    (s : MunchState) (k : String) (v : Val) : Except PyErr MunchState :=
  match objGetattribute s k with
  | some _ => .ok { s with slots := dictWrite s.slots k v }
  | none =>
    match setitem k v with
    | .ok c => .ok { s with contents := c }
    | .error _ => .error (.attributeError k)

/-- Munch.update(*args, **kwargs) and hence Munch.__init__: the sources
are merged by dict(*args, **kwargs) — which accepts at most one
positional mapping, raising TypeError otherwise — and every key of the
merged dict is then written through self[k] = v. -/
def munch_update (s : MunchState) (args : List (List (String × Val)))
    (kwargs : List (String × Val)) : Except PyErr MunchState :=
  if args.length > 1 then .error .typeError
  else
    let base := (args.headD []).foldl (fun d kv => dictWrite d kv.1 kv.2) []
    let merged := kwargs.foldl (fun d kv => dictWrite d kv.1 kv.2) base
    .ok (merged.foldl (fun t kv => munch_setitem t kv.1 kv.2) s)

/-- Munch(...) constructor: an empty instance updated with the
arguments. -/
def munch_init (args : List (List (String × Val))) (kwargs : List (String × Val)) :
    Except PyErr MunchState :=
  munch_update ⟨[], []⟩ args kwargs

/-- State of a DefaultMunch instance: the dict contents plus the
default value held in the out-of-key-space slot __default__. -/
structure DMState where
  contents : List (String × Val)
  default : Val
deriving DecidableEq

/-- DefaultMunch.__getitem__: the stored value if the key exists,
otherwise the default value (the KeyError is caught). -/
def dm_getitem (s : DMState) (k : String) : Val :=
  match alook s.contents k with
  | some v => v
  | none => s.default

/-- DefaultMunch attribute read: the __default__ slot and class
attributes resolve through the prototype chain; any other name falls
through Munch.__getattr__ to self[k], which on DefaultMunch never
raises, so the value or the default is returned. -/
def dm_getattr (s : DMState) (k : String) : Except PyErr AttrVal :=
  if k = "__default__" then .ok (.val s.default)
  else if k ∈ munchReserved then .ok (.classMethod k)
  else .ok (.val (dm_getitem s k))

/-- DefaultMunch item write (inherited dict behaviour). -/
def dm_setitem (s : DMState) (k : String) (v : Val) : DMState :=
  { s with contents := dictWrite s.contents k v }

/-- dict.__contains__, not overridden by any variant: membership in the
stored contents only. -/
def dm_contains (s : DMState) (k : String) : Bool :=
  (alook s.contents k).isSome

/-- Munch.get as inherited by DefaultMunch: if k not in self, return
the explicit fallback d (Python default None); otherwise return
self[k], which dispatches to DefaultMunch.__getitem__. -/
def dm_get (s : DMState) (k : String) (d : Val) : Val :=
  if dm_contains s k then dm_getitem s k else d

/-- State of a DefaultFactoryMunch instance whose factory produces a
fresh object on each call (such as the built-in list): the contents
plus an allocation counter for the identities of factory products. -/
structure DFMState where
  contents : List (String × Val)
  nextId : Nat
deriving DecidableEq

/-- DefaultFactoryMunch item read.  On a hit, dict.__getitem__ returns
the stored value.  On a miss, dict.__getitem__ invokes __missing__,
which runs self[k] = self.default_factory() and then returns self[k].
The third component counts how many times the factory was invoked. -/
def dfm_getitem (s : DFMState) (k : String) : Val × DFMState × Nat :=
  match alook s.contents k with
  | some v => (v, s, 0)
  | none =>
    let produced := Val.vobj s.nextId
    let s1 : DFMState := ⟨dictWrite s.contents k produced, s.nextId + 1⟩
    ((alook s1.contents k).getD produced, s1, 1)

/-- DefaultFactoryMunch attribute read for a name not in the prototype
chain: Munch.__getattr__ falls through to self[k], inheriting the
materialize-on-miss behaviour. -/
def dfm_getattr (s : DFMState) (k : String) : AttrVal × DFMState × Nat :=
  if k ∈ munchReserved then (.classMethod k, s, 0)
  else
    let r := dfm_getitem s k
    (.val r.1, r.2.1, r.2.2)

/-- dict.__contains__ for DefaultFactoryMunch. -/
def dfm_contains (s : DFMState) (k : String) : Bool :=
  (alook s.contents k).isSome

/-- Values stored in the nested structure built by splitnest: either a
leaf value taken from the flat input mapping or a nested dict. -/
inductive NVal where
  | scalar : Val → NVal
  | ndict : List (String × NVal) → NVal

/-- The helper nest(i, e, v) of splitnest: if the path has one segment,
write the value there; otherwise descend through e.setdefault(i[0], {})
and recurse on the remaining segments.  Indexing an empty path or
descending into a non-dict value is a Python runtime error. -/
def nest : List String → List (String × NVal) → Val → Except PyErr (List (String × NVal))
  | [], _, _ => .error .indexError
  | [k], e, v => .ok (dictWrite e k (.scalar v))
  | k :: k2 :: rest, e, v =>
    match alook e k with
    | some (.ndict d) =>
      match nest (k2 :: rest) d v with
      | .ok d2 => .ok (dictWrite e k (.ndict d2))
      | .error err => .error err
    | some (.scalar _) => .error .typeError
    | none =>
      match nest (k2 :: rest) [] v with
      | .ok d2 => .ok (dictWrite e k (.ndict d2))
      | .error err => .error err

/-- Locate the first occurrence of the separator in a character list:
the characters before it and the characters after it. -/
def findSep (sep : List Char) : List Char → Option (List Char × List Char)
  | [] => none
  | c :: rest =>
    if (c :: rest).take sep.length = sep then some ([], (c :: rest).drop sep.length)
    else
      match findSep sep rest with
      | some (pre, post) => some (c :: pre, post)
      | none => none

/-- Splitting on a nonempty separator, one separator occurrence per
step; the fuel only bounds the number of pieces and is always
sufficient when it exceeds the length of the input. -/
def pySplitFuel (sep : List Char) : Nat → List Char → List String
  | 0, s => [String.mk s]
  | f + 1, s =>
    match findSep sep s with
    | some (pre, post) => String.mk pre :: pySplitFuel sep f post
    | none => [String.mk s]

/-- Python str.split(sep) with an explicit separator: splitting on the
empty separator is a ValueError, otherwise the string is cut at every
occurrence of the separator (adjacent occurrences produce empty
pieces, and a string without the separator is returned whole). -/
def pySplit (s sep : String) : Except PyErr (List String) :=
  match sep.data with
  | [] => .error .valueError
  | c :: rest => .ok (pySplitFuel (c :: rest) (s.data.length + 1) s.data)

/-- The nested single-chain mapping that stores a value at the end of
a key path: the expected result of inserting one compound key into an
empty mapping. -/
def nestChain : List String → Val → List (String × NVal)
  | [], _ => []
  | [k], v => [(k, .scalar v)]
  | k :: k2 :: rest, v => [(k, .ndict (nestChain (k2 :: rest) v))]

/-- splitnest(d, sep): split every key of the flat mapping on the
separator and insert its value along the resulting path into a fresh
nested plain mapping. -/
def splitnest (d : List (String × Val)) (sep : String) :
    Except PyErr (List (String × NVal)) :=
  d.foldl
    (fun acc kv =>
      match acc with
      | .ok e =>
        match pySplit kv.1 sep with
        | .ok path => nest path e kv.2
        | .error err => .error err
      | .error err => .error err)
    (.ok [])

/-- Tree-shaped Python values (no sharing, no cycles): the inputs the
round-trip claim quantifies over.  A mapping node carries a flag that
tells a Munch (true) apart from a plain dict (false); Python equality
ignores the flag, since Munch is a dict subclass with inherited
equality. -/
inductive PyVal where
  | atomv : Val → PyVal
  | mapv : Bool → List (String × PyVal) → PyVal
  | listv : List PyVal → PyVal
  | tupv : List PyVal → PyVal

/-- True exactly on list nodes. -/
def PyVal.isListv : PyVal → Bool
  | .listv _ => true
  | _ => false

mutual

/-- The conversion algorithm shared verbatim by munchify (target tag
true, factory Munch) and unmunchify (target tag false, factory dict),
restricted to tree-shaped inputs.  On trees every object identity is
distinct, so the seen-map of the source resolves a repeated visit of a
node to the value its earlier conversion produced; since conversion of
a tree node is deterministic, that value is reproduced here by
re-running the conversion. -/
def convCycles (m : Bool) : PyVal → PyVal
  | x => convPost m (convPre m x) x
termination_by x => (sizeOf x, 2)

/-- pre_munchify / pre_unmunchify: the skeleton of the converted
object: an empty container for mappings and lists, a tuple of
immediately converted items for tuples, the object itself for
scalars. -/
def convPre (m : Bool) : PyVal → PyVal
  | .mapv _ _ => .mapv m []
  | .listv _ => .listv []
  | .tupv ts => .tupv (convList m ts)
  | .atomv a => .atomv a
termination_by x => (sizeOf x, 0)

/-- Conversion mapped over the items of a list or tuple. -/
def convList (m : Bool) : List PyVal → List PyVal
  | [] => []
  | t :: ts => convCycles m t :: convList m ts
termination_by ts => (sizeOf ts, 2)

/-- Conversion mapped over the values of a mapping's entries. -/
def convEntries (m : Bool) : List (String × PyVal) → List (String × PyVal)
  | [] => []
  | (k, v) :: es => (k, convCycles m v) :: convEntries m es
termination_by es => (sizeOf es, 2)

/-- post_munchify / post_unmunchify: fill the skeleton from the source
object: update a mapping skeleton with the converted entries, extend a
list skeleton with the converted items, recurse pairwise into a tuple,
leave anything else alone.  Note that the tuple branch re-runs the fill
on already filled children, which extends their lists a second
time. -/
def convPost (m : Bool) : PyVal → PyVal → PyVal
  | skel, .mapv _ es =>
    match skel with
    | .mapv b cur =>
      .mapv b ((convEntries m es).foldl (fun d kv => dictWrite d kv.1 kv.2) cur)
    | other => other
  | skel, .listv xs =>
    match skel with
    | .listv cur => .listv (cur ++ convList m xs)
    | other => other
  | skel, .tupv ts =>
    match skel with
    | .tupv ps => .tupv (convPostZip m ps ts)
    | other => other
  | skel, .atomv _ => skel
termination_by skel obj => (sizeOf obj, 1)

/-- The zip of the fill over the paired items of a tuple skeleton and
its source tuple (Python zip stops at the shorter sequence and the
remaining skeleton items are returned unchanged). -/
def convPostZip (m : Bool) : List PyVal → List PyVal → List PyVal
  | [], _ => []
  | p :: ps, [] => p :: ps
  | p :: ps, t :: ts => convPost m p t :: convPostZip m ps ts
termination_by ps ts => (sizeOf ts, 0)

end

/-- munchify on tree-shaped values: convert every mapping into a Munch. -/
def munchifyT (x : PyVal) : PyVal := convCycles true x

/-- unmunchify on tree-shaped values: convert every mapping into a
plain dict. -/
def unmunchifyT (x : PyVal) : PyVal := convCycles false x

mutual

/-- Python == on these values: mappings compare as unordered key-value
collections of equal size (the Munch/dict flag is invisible to dict
equality), lists and tuples compare pointwise and never equal each
other, scalars compare by value. -/
def pyEq : PyVal → PyVal → Bool
  | .atomv a, .atomv b => a == b
  | .mapv _ es1, .mapv _ es2 => (es1.length == es2.length) && pyEqEntries es1 es2
  | .listv xs, .listv ys => pyEqList xs ys
  | .tupv xs, .tupv ys => pyEqList xs ys
  | _, _ => false
termination_by a b => (sizeOf a, 0)

/-- Every entry of the first mapping is present and equal in the
second. -/
def pyEqEntries : List (String × PyVal) → List (String × PyVal) → Bool
  | [], _ => true
  | (k, v) :: rest, es2 => pyEqLook k v es2 && pyEqEntries rest es2
termination_by es1 es2 => (sizeOf es1, 0)

/-- Membership with equal value of one entry in a mapping. -/
def pyEqLook : String → PyVal → List (String × PyVal) → Bool
  | _, _, [] => false
  | k, v, (k2, w) :: rest => if k2 = k then pyEq v w else pyEqLook k v rest
termination_by k v es2 => (sizeOf v, sizeOf es2)

/-- Pointwise equality of sequences. -/
def pyEqList : List PyVal → List PyVal → Bool
  | [], [] => true
  | x :: xs, y :: ys => pyEq x y && pyEqList xs ys
  | _, _ => false
termination_by xs ys => (sizeOf xs, 0)

end

mutual

/-- Retagging every mapping node of a value, the intended effect of a
conversion pass on an acyclic input: munchify should be retagging with
true, unmunchify retagging with false. -/
def retag (m : Bool) : PyVal → PyVal
  | .atomv a => .atomv a
  | .mapv _ es => .mapv m (retagEntries m es)
  | .listv xs => .listv (retagList m xs)
  | .tupv ts => .tupv (retagList m ts)

/-- retag mapped over sequence items. -/
def retagList (m : Bool) : List PyVal → List PyVal
  | [] => []
  | x :: xs => retag m x :: retagList m xs

/-- retag mapped over mapping entries. -/
def retagEntries (m : Bool) : List (String × PyVal) → List (String × PyVal)
  | [] => []
  | (k, v) :: es => (k, retag m v) :: retagEntries m es

end

mutual

/-- The value is built from real Python dicts: every mapping node has
pairwise distinct keys. -/
def pyWF : PyVal → Bool
  | .atomv _ => true
  | .mapv _ es => nodupKeys (es.map Prod.fst) && pyWFEntries es
  | .listv xs => pyWFList xs
  | .tupv ts => pyWFList ts

/-- pyWF over sequence items. -/
def pyWFList : List PyVal → Bool
  | [] => true
  | x :: xs => pyWF x && pyWFList xs

/-- pyWF over mapping entries. -/
def pyWFEntries : List (String × PyVal) → Bool
  | [] => true
  | (_, v) :: es => pyWF v && pyWFEntries es

end

mutual

/-- No list occurs as a tuple item, directly or through nested tuples.
This is the region where the double fill performed by the tuple branch
of the post phase is harmless. -/
def tupleSafe : PyVal → Bool
  | .atomv _ => true
  | .mapv _ es => tupleSafeEntries es
  | .listv xs => tupleSafeList xs
  | .tupv ts => tupleSafeTup ts

/-- tupleSafe over ordinary sequence items. -/
def tupleSafeList : List PyVal → Bool
  | [] => true
  | x :: xs => tupleSafe x && tupleSafeList xs

/-- tupleSafe over mapping entries. -/
def tupleSafeEntries : List (String × PyVal) → Bool
  | [] => true
  | (_, v) :: es => tupleSafe v && tupleSafeEntries es

/-- Items of a tuple: they must not be lists, and are checked
recursively. -/
def tupleSafeTup : List PyVal → Bool
  | [] => true
  | t :: ts => (!t.isListv) && tupleSafe t && tupleSafeTup ts

end

/-- Heap node: the shape of one Python object, with children referred
to by object identity.  A mapping node records whether it is a Munch
(true) or a plain mapping (false). -/
inductive HNode where
  | hmap : Bool → List (String × Nat) → HNode
  | hlist : List Nat → HNode
  | htup : List Nat → HNode
  | hatom : Val → HNode
deriving DecidableEq

/-- A heap: object identities mapped to nodes (first match wins). -/
abbrev Heap := List (Nat × HNode)

/-- Heap lookup by object identity. -/
def hget : Heap → Nat → Option HNode
  | [], _ => none
  | (a, n) :: rest, i => if a = i then some n else hget rest i

/-- In-place mutation of the node stored at an identity. -/
def hset : Heap → Nat → HNode → Heap
  | [], _, _ => []
  | (a, n) :: rest, i, nd =>
    if a = i then (a, nd) :: rest else (a, n) :: hset rest i nd

/-- Lookup in the seen map (source identity to converted identity). -/
def nlook : List (Nat × Nat) → Nat → Option Nat
  | [], _ => none
  | (a, b) :: rest, i => if a = i then some b else nlook rest i

/-- State threaded through a munchify run: the heap (source objects
plus converted objects), the seen map, and the next fresh identity. -/
structure CState where
  heap : Heap
  seen : List (Nat × Nat)
  next : Nat
deriving DecidableEq

/-- Allocate a fresh object holding the given node. -/
def allocNode (s : CState) (nd : HNode) : CState × Nat :=
  (⟨(s.next, nd) :: s.heap, s.seen, s.next + 1⟩, s.next)

/-- Record seen[id(obj)] = converted. -/
def registerSeen (s : CState) (i j : Nat) : CState :=
  ⟨s.heap, (i, j) :: s.seen, s.next⟩

/-- Mutate the node stored at an existing identity. -/
def setNode (s : CState) (j : Nat) (nd : HNode) : CState :=
  ⟨hset s.heap j nd, s.seen, s.next⟩

mutual

/-- munchify_cycles(obj): return the already-created counterpart if obj
is in the seen map; otherwise build the skeleton with pre_munchify,
register it under obj's identity, and finish it with post_munchify.
The first argument is fuel: every recursive call consumes one unit, and
None means the fuel ran out (the sufficiency theorem shows enough fuel
always exists for well-formed heaps). -/
def munchCycF : Nat → CState → Nat → Option (CState × Nat)
  | 0, _, _ => none
  | g + 1, s, i =>
    match nlook s.seen i with
    | some j => some (s, j)
    | none =>
      match preMunchF g s i with
      | some (s1, j) =>
        match postMunchF g (registerSeen s1 i j) j i with
        | some s2 => some (s2, j)
        | none => none
      | none => none
termination_by structural g _ _ => g

/-- pre_munchify(obj): an empty factory container for a mapping, an
empty list for a list, a tuple of immediately converted items for a
tuple (tuples are immutable, so no skeleton is possible), and the
object itself for anything else. -/
def preMunchF : Nat → CState → Nat → Option (CState × Nat)
  | 0, _, _ => none
  | g + 1, s, i =>
    match hget s.heap i with
    | some (.hmap _ _) => some (allocNode s (.hmap true []))
    | some (.hlist _) => some (allocNode s (.hlist []))
    | some (.htup its) =>
      match listFoldF g s its with
      | some (s1, js) => some (allocNode s1 (.htup js))
      | none => none
    | some (.hatom _) => some (s, i)
    | none => none

/-- munchify_cycles mapped over a list of children, threading state. -/
def listFoldF : Nat → CState → List Nat → Option (CState × List Nat)
  | 0, _, _ => none
  | _ + 1, s, [] => some (s, [])
  | g + 1, s, v :: vs =>
    match munchCycF g s v with
    | some (s1, j) =>
      match listFoldF g s1 vs with
      | some (s2, js) => some (s2, j :: js)
      | none => none
    | none => none

/-- munchify_cycles mapped over a mapping's entries, threading state. -/
def mapFoldF : Nat → CState → List (String × Nat) →
    Option (CState × List (String × Nat))
  | 0, _, _ => none
  | _ + 1, s, [] => some (s, [])
  | g + 1, s, (k, v) :: es =>
    match munchCycF g s v with
    | some (s1, j) =>
      match mapFoldF g s1 es with
      | some (s2, prs) => some (s2, (k, j) :: prs)
      | none => none
    | none => none

/-- post_munchify(partial, obj): update a mapping partial with the
converted entries of obj, extend a list partial with the converted
items of obj, recurse pairwise into a tuple (zip of partial and obj),
and do nothing for other objects. -/
def postMunchF : Nat → CState → Nat → Nat → Option CState
  | 0, _, _, _ => none
  | g + 1, s, pj, i =>
    match hget s.heap i with
    | some (.hmap _ es) =>
      match mapFoldF g s es with
      | some (s1, prs) =>
        match hget s1.heap pj with
        | some (.hmap b cur) =>
          some (setNode s1 pj (.hmap b (prs.foldl (fun d kv => dictWrite d kv.1 kv.2) cur)))
        | _ => none
      | none => none
    | some (.hlist its) =>
      match listFoldF g s its with
      | some (s1, js) =>
        match hget s1.heap pj with
        | some (.hlist cur) => some (setNode s1 pj (.hlist (cur ++ js)))
        | _ => none
      | none => none
    | some (.htup its) =>
      match hget s.heap pj with
      | some (.htup pjs) => postPairsF g s (pjs.zip its)
      | _ => none
    | some (.hatom _) => some s
    | none => none

/-- post_munchify over the zipped (item_partial, item) pairs of a
tuple. -/
def postPairsF : Nat → CState → List (Nat × Nat) → Option CState
  | 0, _, _ => none
  | _ + 1, s, [] => some s
  | g + 1, s, (p, o) :: rest =>
    match postMunchF g s p o with
    | some s1 => postPairsF g s1 rest
    | none => none

end

/-- An upper bound on the identities present in a heap, used as the
first fresh identity for allocation. -/
def maxIdPlus (σ : Heap) : Nat :=
  σ.foldl (fun a p => max a (p.1 + 1)) 0

/-- The state munchify starts from: the source heap, an empty seen map
local to the call, and fresh identities above everything in σ. -/
def initState (σ : Heap) : CState := ⟨σ, [], maxIdPlus σ⟩

/-- munchify(x) with the given fuel: x is the root identity in the
source heap σ. -/
def munchifyRun (σ : Heap) (r : Nat) (g : Nat) : Option (CState × Nat) :=
  munchCycF g (initState σ) r

/-- The identities a heap defines. -/
def srcIds (σ : Heap) : List Nat := σ.map Prod.fst

/-- Identities referenced by a node. -/
def nodeChildren : HNode → List Nat
  | .hmap _ es => es.map Prod.snd
  | .hlist its => its
  | .htup its => its
  | .hatom _ => []

/-- Every reference inside the heap points at an object of the heap
(true of any snapshot of real Python objects). -/
def heapClosed (σ : Heap) : Bool :=
  σ.all (fun p => (nodeChildren p.2).all (fun c => (hget σ c).isSome))

/-- Tuples are created after the objects they contain, so the relation
from a tuple to its items is well-founded: some rank (creation time)
strictly decreases from any tuple to each of its items.  A heap of real
Python objects always admits such a rank, because tuples are
immutable. -/
def TupleRanked (σ : Heap) : Prop :=
  ∃ rank : Nat → Nat, ∀ i its, hget σ i = some (.htup its) → ∀ j, j ∈ its → rank j < rank i

/-- A converted identity is safe to hand out: it is not one of the
source's container objects (it is either a freshly allocated object or
a scalar of the source, which conversion returns unchanged). -/
def PjOK (σ : Heap) (j : Nat) : Prop :=
  hget σ j = none ∨ ∃ v, hget σ j = some (.hatom v)

/-- Invariant of every state reached while munchifying a source heap σ:
allocation stays fresh, the source objects are never mutated, the seen
map only records source objects and maps them to safe counterparts, and
every allocated tuple only holds safe counterparts. -/
structure GoodCfg (σ : Heap) (s : CState) : Prop where
  fresh : ∀ a ∈ s.heap.map Prod.fst, a < s.next
  srcPres : ∀ a, (hget σ a).isSome = true → hget s.heap a = hget σ a
  srcLt : ∀ a, (hget σ a).isSome = true → a < s.next
  seenSrc : ∀ p ∈ s.seen, (hget σ p.1).isSome = true
  seenTgt : ∀ p ∈ s.seen, PjOK σ p.2
  tupTgt : ∀ a js, hget σ a = none → hget s.heap a = some (.htup js) → ∀ j ∈ js, PjOK σ j

/-- How one interpreter step (or any sequence of steps) relates an
earlier state to a later one: the seen map only grows, allocation only
moves forward, mapping and list nodes keep their identity and kind
(their contents may be filled in), tuple nodes never change at all. -/
structure HeapEvo (s1 s2 : CState) : Prop where
  seenExt : ∀ a b, nlook s1.seen a = some b → nlook s2.seen a = some b
  nextLe : s1.next ≤ s2.next
  mapKeep : ∀ a b0 cur0, hget s1.heap a = some (.hmap b0 cur0) →
    ∃ cur1, hget s2.heap a = some (.hmap b0 cur1)
  listKeep : ∀ a cur0, hget s1.heap a = some (.hlist cur0) →
    ∃ cur1, hget s2.heap a = some (.hlist cur1)
  tupKeep : ∀ a js, hget s1.heap a = some (.htup js) → hget s2.heap a = some (.htup js)

/-- How many source objects have not been visited yet: the measure
that munchify's seen map decreases. -/
def unseenCount (σ : Heap) (s : CState) : Nat :=
  ((σ.map Prod.fst).filter (fun a => (nlook s.seen a).isNone)).length

/-- The shape correspondence between a source object and its converted
counterpart, as built by pre_munchify: scalars convert to themselves,
mappings and lists to allocated mappings and lists, and tuples to
allocated tuples whose items correspond pointwise (recursively). -/
inductive PairMatch (σ : Heap) (h : Heap) : Nat → Nat → Prop where
  | atom : ∀ i v, hget σ i = some (.hatom v) → PairMatch σ h i i
  | map : ∀ i j b es bb cur, hget σ i = some (.hmap b es) →
      hget h j = some (.hmap bb cur) → hget σ j = none → PairMatch σ h i j
  | list : ∀ i j its cur, hget σ i = some (.hlist its) →
      hget h j = some (.hlist cur) → hget σ j = none → PairMatch σ h i j
  | tup : ∀ i j its js, hget σ i = some (.htup its) →
      hget h j = some (.htup js) → hget σ j = none →
      (∀ n o p, its.get? n = some o → js.get? n = some p → PairMatch σ h o p) →
      PairMatch σ h i j

/-- Every pair recorded in the seen map is shape-matched. -/
def SeenPM (σ : Heap) (s : CState) : Prop :=
  ∀ i j, nlook s.seen i = some j → PairMatch σ s.heap i j

/-- Sufficiency of fuel up to a measure bound n: each interpreter
function succeeds for SOME fuel whenever its termination measure is at
most n.  The measure counts unseen source objects (weighted by M + 1,
where M bounds the tuple rank over the source) plus the rank of the
object in hand; post_munchify gets one extra unseen-weight because it
runs after its object was registered. -/
def SuffAt (σ : Heap) (rank : Nat → Nat) (M : Nat) (n : Nat) : Prop :=
  (∀ s i, GoodCfg σ s → SeenPM σ s → (hget σ i).isSome = true →
    unseenCount σ s * (M + 1) + rank i ≤ n →
    ∃ g r, munchCycF g s i = some r) ∧
  (∀ s i, GoodCfg σ s → SeenPM σ s → (hget σ i).isSome = true →
    unseenCount σ s * (M + 1) + rank i ≤ n →
    ∃ g r, preMunchF g s i = some r) ∧
  (∀ s vs, GoodCfg σ s → SeenPM σ s → (∀ v ∈ vs, (hget σ v).isSome = true) →
    (∀ v ∈ vs, unseenCount σ s * (M + 1) + rank v ≤ n) →
    ∃ g r, listFoldF g s vs = some r) ∧
  (∀ s es, GoodCfg σ s → SeenPM σ s → (∀ p ∈ es, (hget σ p.2).isSome = true) →
    (∀ p ∈ es, unseenCount σ s * (M + 1) + rank p.2 ≤ n) →
    ∃ g r, mapFoldF g s es = some r) ∧
  (∀ s pj i, GoodCfg σ s → SeenPM σ s → (hget σ i).isSome = true →
    PairMatch σ s.heap i pj →
    (unseenCount σ s + 1) * (M + 1) + rank i ≤ n →
    ∃ g s2, postMunchF g s pj i = some s2) ∧
  (∀ s ps, GoodCfg σ s → SeenPM σ s →
    (∀ q ∈ ps, (hget σ q.2).isSome = true ∧ PairMatch σ s.heap q.2 q.1) →
    (∀ q ∈ ps, (unseenCount σ s + 1) * (M + 1) + rank q.2 ≤ n) →
    ∃ g s2, postPairsF g s ps = some s2)

/-! Basic lemmas about association lists and dict writes. -/

theorem alook_dictWrite_self {α : Type} (es : List (String × α)) (k : String) (v : α) :
    alook (dictWrite es k v) k = some v := by
  induction es with
  | nil => simp [dictWrite, alook]
  | cons p rest ih =>
    obtain ⟨k1, w⟩ := p
    by_cases h : k1 = k
    · subst h; simp [dictWrite, alook]
    · simp [dictWrite, alook, h, ih]

theorem alook_dictWrite_ne {α : Type} (es : List (String × α)) {k k' : String} (v : α)
    (h : k' ≠ k) : alook (dictWrite es k v) k' = alook es k' := by
  have h' : k ≠ k' := Ne.symm h
  induction es with
  | nil => simp [dictWrite, alook, h']
  | cons p rest ih =>
    obtain ⟨k1, w⟩ := p
    by_cases h1 : k1 = k
    · subst h1
      simp [dictWrite, alook, h']
    · simp [dictWrite, alook, h1, ih]

theorem alook_mem {α : Type} {es : List (String × α)} {k : String} {v : α}
    (h : alook es k = some v) : (k, v) ∈ es := by
  induction es with
  | nil => simp [alook] at h
  | cons p rest ih =>
    obtain ⟨k1, w⟩ := p
    by_cases h1 : k1 = k
    · subst h1
      simp [alook] at h
      simp [h]
    · simp [alook, h1] at h
      exact List.mem_cons_of_mem _ (ih h)

theorem alook_not_mem {α : Type} {es : List (String × α)} {k : String}
    (h : k ∉ es.map Prod.fst) : alook es k = none := by
  induction es with
  | nil => rfl
  | cons p rest ih =>
    obtain ⟨k1, w⟩ := p
    have h1 : k1 ≠ k := by
      intro hh
      exact h (by simp [hh])
    have h2 : k ∉ rest.map Prod.fst := by
      intro hh
      exact h (by simp [hh])
    simp [alook, h1, ih h2]

theorem alook_isSome_of_mem {α : Type} {es : List (String × α)} {k : String}
    (h : k ∈ es.map Prod.fst) : (alook es k).isSome = true := by
  induction es with
  | nil => simp at h
  | cons p rest ih =>
    obtain ⟨k1, w⟩ := p
    by_cases h1 : k1 = k
    · simp [alook, h1]
    · rw [List.map_cons, List.mem_cons] at h
      rcases h with h | h
      · exact absurd h.symm h1
      · simp [alook, h1, ih h]

theorem nodupKeys_iff {ks : List String} :
    nodupKeys ks = true ↔ ks.Nodup := by
  induction ks with
  | nil => simp [nodupKeys]
  | cons k rest ih =>
    simp [nodupKeys, ih]

theorem nodupKeys_cons {k : String} {ks : List String}
    (h : nodupKeys (k :: ks) = true) : k ∉ ks ∧ nodupKeys ks = true := by
  rw [nodupKeys_iff] at h
  rw [List.nodup_cons] at h
  exact ⟨h.1, nodupKeys_iff.mpr h.2⟩

theorem mem_alook_nodup {α : Type} {es : List (String × α)} {k : String} {v : α}
    (hnd : nodupKeys (es.map Prod.fst) = true) (h : (k, v) ∈ es) :
    alook es k = some v := by
  induction es with
  | nil => simp at h
  | cons p rest ih =>
    obtain ⟨k1, w⟩ := p
    have hnd1 := @nodupKeys_cons k1 (rest.map Prod.fst) (by simpa using hnd)
    rcases List.mem_cons.mp h with h0 | h0
    · injection h0 with e1 e2
      subst e1; subst e2
      simp [alook]
    · have hk1 : k1 ≠ k := by
        intro hh
        subst hh
        exact hnd1.1 (List.mem_map.mpr ⟨(k1, v), h0, rfl⟩)
      simp [alook, hk1]
      exact ih hnd1.2 h0

theorem foldl_dictWrite_alook {α : Type} (ps : List (String × α)) (d0 : List (String × α))
    (k : String) (hnd : nodupKeys (ps.map Prod.fst) = true) :
    alook (ps.foldl (fun d kv => dictWrite d kv.1 kv.2) d0) k =
      (alook ps k).or (alook d0 k) := by
  induction ps generalizing d0 with
  | nil => simp [alook]
  | cons p rest ih =>
    obtain ⟨k1, w⟩ := p
    have hnd1 := @nodupKeys_cons k1 (rest.map Prod.fst) (by simpa using hnd)
    rw [List.foldl_cons, ih (dictWrite d0 k1 w) hnd1.2]
    by_cases h1 : k1 = k
    · subst h1
      have hnone : alook rest k1 = none := alook_not_mem hnd1.1
      simp [alook, hnone, alook_dictWrite_self]
    · cases hr : alook rest k with
      | some v => simp [alook, h1, hr]
      | none => simp [alook, h1, hr, alook_dictWrite_ne d0 w (fun hh => h1 hh.symm)]

theorem dictWrite_keys {α : Type} (es : List (String × α)) (k : String) (v : α) :
    (dictWrite es k v).map Prod.fst =
      if k ∈ es.map Prod.fst then es.map Prod.fst else es.map Prod.fst ++ [k] := by
  induction es with
  | nil => simp [dictWrite]
  | cons p rest ih =>
    obtain ⟨k1, w⟩ := p
    by_cases h1 : k1 = k
    · subst h1
      simp [dictWrite]
    · have h2 : ¬k = k1 := fun hh => h1 hh.symm
      by_cases hm : k ∈ rest.map Prod.fst
      · simp [dictWrite, h1, ih, h2, hm]
      · simp [dictWrite, h1, ih, h2, hm]

theorem nodupKeys_dictWrite {α : Type} {es : List (String × α)} (k : String) (v : α)
    (h : nodupKeys (es.map Prod.fst) = true) :
    nodupKeys ((dictWrite es k v).map Prod.fst) = true := by
  rw [nodupKeys_iff] at h ⊢
  rw [dictWrite_keys]
  by_cases hm : k ∈ es.map Prod.fst
  · simpa [hm] using h
  · rw [if_neg hm, List.nodup_append]
    refine ⟨h, List.nodup_singleton k, ?_⟩
    intro a ha hak
    rw [List.mem_singleton] at hak
    exact hm (hak ▸ ha)

theorem nodupKeys_foldl_dictWrite {α : Type} (ps : List (String × α))
    {d0 : List (String × α)} (h : nodupKeys (d0.map Prod.fst) = true) :
    nodupKeys ((ps.foldl (fun d kv => dictWrite d kv.1 kv.2) d0).map Prod.fst) = true := by
  induction ps generalizing d0 with
  | nil => exact h
  | cons p rest ih => exact ih (nodupKeys_dictWrite p.1 p.2 h)

theorem foldl_setitem_contents (ps : List (String × Val)) (s : MunchState) :
    (ps.foldl (fun t kv => munch_setitem t kv.1 kv.2) s).contents =
      ps.foldl (fun d kv => dictWrite d kv.1 kv.2) s.contents := by
  induction ps generalizing s with
  | nil => rfl
  | cons p rest ih => simpa [munch_setitem] using ih (munch_setitem s p.1 p.2)

theorem alook_slots_none {slots : List (String × Val)} {k : String}
    (hs : ∀ p ∈ slots, p.1 ∈ munchReserved) (hk : k ∉ munchReserved) :
    alook slots k = none := by
  cases h : alook slots k with
  | none => rfl
  | some v => exact absurd (hs _ (alook_mem h)) hk

/-! Claims about the base container (C4, C5, C7). -/

/-- C4: for a base container and a key k that does not collide with a
method or reserved name (and whose instance slots only hold reserved
names, the only slots base-class code ever creates), the item write
c[k] = v makes the attribute read c.k return v, and the attribute
write c.k = v makes the item read c[k] return v. -/
theorem claim_C4_attr_item_duality (s : MunchState) (k : String) (v : Val)
    (hs : ∀ p ∈ s.slots, p.1 ∈ munchReserved) (hk : k ∉ munchReserved) :
    munch_getattr (munch_setitem s k v) k = .ok (.val v) ∧
    munch_getitem (munch_setattr s k v) k = .ok v := by
  have hslots : alook s.slots k = none := alook_slots_none hs hk
  have hobj : objGetattribute s k = none := by
    simp [objGetattribute, hslots, hk]
  constructor
  · simp [munch_getattr, objGetattribute, munch_setitem, hslots, hk, munch_getitem,
      alook_dictWrite_self]
  · simp [munch_setattr, hobj, munch_getitem, munch_setitem, alook_dictWrite_self]

theorem claim_C4_witness :
    munch_getattr (munch_setitem ⟨[], []⟩ "hello" (.vint 7)) "hello" = .ok (.val (.vint 7)) ∧
    munch_getitem (munch_setattr ⟨[], []⟩ "hello" (.vint 7)) "hello" = .ok (.vint 7) :=
  claim_C4_attr_item_duality ⟨[], []⟩ "hello" (.vint 7)
    (by intro p hp; simp at hp) (by decide)

/-- C5, counterexample: update (and so construction) with two
positional mappings does not merge them; dict(*args) accepts at most
one positional argument, so the call raises TypeError and no key of
either input appears in any result. -/
theorem claim_C5_update_counterexample :
    munch_update ⟨[], []⟩ [[("a", .vint 1)], [("b", .vint 2)]] [] = .error .typeError := rfl

/-- C5, amended: construction and bulk update accept at most one
positional mapping plus keyword arguments; with one mapping m and
keywords, every key of both inputs appears in the result, keyword
arguments shadow the mapping, and each key is written through the
item-write path (munch_update is a fold of munch_setitem). -/
theorem claim_C5_update_amended (s : MunchState) (m kwargs : List (String × Val))
    (hm : nodupKeys (m.map Prod.fst) = true)
    (hkw : nodupKeys (kwargs.map Prod.fst) = true) :
    ∃ s', munch_update s [m] kwargs = .ok s' ∧
      (∀ k v, alook kwargs k = some v → alook s'.contents k = some v) ∧
      (∀ k v, alook kwargs k = none → alook m k = some v → alook s'.contents k = some v) ∧
      (∀ k, k ∈ m.map Prod.fst ∨ k ∈ kwargs.map Prod.fst →
        (alook s'.contents k).isSome = true) := by
  have hrun : munch_update s [m] kwargs =
      .ok ((kwargs.foldl (fun d kv => dictWrite d kv.1 kv.2)
            (m.foldl (fun d kv => dictWrite d kv.1 kv.2) [])).foldl
              (fun t kv => munch_setitem t kv.1 kv.2) s) := by
    simp [munch_update]
  refine ⟨_, hrun, ?_⟩
  have hndb : nodupKeys ((m.foldl (fun d kv => dictWrite d kv.1 kv.2) []).map Prod.fst) = true :=
    nodupKeys_foldl_dictWrite m (by simp [nodupKeys])
  have hndm : nodupKeys ((kwargs.foldl (fun d kv => dictWrite d kv.1 kv.2)
      (m.foldl (fun d kv => dictWrite d kv.1 kv.2) [])).map Prod.fst) = true :=
    nodupKeys_foldl_dictWrite kwargs hndb
  have hfinal : ∀ k,
      alook ((kwargs.foldl (fun d kv => dictWrite d kv.1 kv.2)
        (m.foldl (fun d kv => dictWrite d kv.1 kv.2) [])).foldl
          (fun t kv => munch_setitem t kv.1 kv.2) s).contents k =
      (alook (kwargs.foldl (fun d kv => dictWrite d kv.1 kv.2)
        (m.foldl (fun d kv => dictWrite d kv.1 kv.2) [])) k).or (alook s.contents k) := by
    intro k
    rw [foldl_setitem_contents]
    exact foldl_dictWrite_alook _ s.contents k hndm
  have hmrg : ∀ k,
      alook (kwargs.foldl (fun d kv => dictWrite d kv.1 kv.2)
        (m.foldl (fun d kv => dictWrite d kv.1 kv.2) [])) k =
      (alook kwargs k).or ((alook m k).or none) := by
    intro k
    rw [foldl_dictWrite_alook _ _ k hkw, foldl_dictWrite_alook _ _ k hm]
    rfl
  refine ⟨?_, ?_, ?_⟩
  · intro k v hv
    rw [hfinal, hmrg, hv]
    rfl
  · intro k v hkw0 hv
    rw [hfinal, hmrg, hkw0, hv]
    rfl
  · intro k hk
    rcases hk with hk | hk
    · rcases Option.isSome_iff_exists.mp (alook_isSome_of_mem hk) with ⟨v, hv⟩
      rw [hfinal, hmrg, hv]
      cases alook kwargs k <;> simp [Option.or]
    · rcases Option.isSome_iff_exists.mp (alook_isSome_of_mem hk) with ⟨v, hv⟩
      rw [hfinal, hmrg, hv]
      cases alook s.contents k <;> simp [Option.or]

theorem claim_C5_witness :
    ∃ s', munch_update ⟨[], []⟩ [[("a", .vint 1), ("b", .vint 2)]] [("b", .vint 3)] = .ok s' ∧
      (∀ k v, alook [("b", Val.vint 3)] k = some v → alook s'.contents k = some v) ∧
      (∀ k v, alook [("b", Val.vint 3)] k = none →
        alook [("a", Val.vint 1), ("b", Val.vint 2)] k = some v →
        alook s'.contents k = some v) ∧
      (∀ k, k ∈ [("a", Val.vint 1), ("b", Val.vint 2)].map Prod.fst ∨
          k ∈ [("b", Val.vint 3)].map Prod.fst →
        (alook s'.contents k).isSome = true) :=
  claim_C5_update_amended ⟨[], []⟩ [("a", .vint 1), ("b", .vint 2)] [("b", .vint 3)]
    (by decide) (by decide)

/-- C7: when the item write performed on behalf of an attribute write
fails with any error whatsoever, the attribute write surfaces it as
AttributeError carrying the attribute name, never as the original
failure kind. -/
theorem claim_C7_setattr_error_kind
    (setitem : String → Val → Except PyErr (List (String × Val)))
    (s : MunchState) (k : String) (v : Val) (e : PyErr)
    (hs : ∀ p ∈ s.slots, p.1 ∈ munchReserved) (hk : k ∉ munchReserved)
    (he : setitem k v = .error e) :
    munch_setattr_sub setitem s k v = .error (.attributeError k) := by
  have hslots : alook s.slots k = none := alook_slots_none hs hk
  simp [munch_setattr_sub, objGetattribute, hslots, hk, he]

theorem claim_C7_witness :
    munch_setattr_sub (fun _ _ => .error (.keyError "boom")) ⟨[], []⟩ "hello" .vnone =
      .error (.attributeError "hello") :=
  claim_C7_setattr_error_kind (fun _ _ => .error (.keyError "boom")) ⟨[], []⟩
    "hello" .vnone (.keyError "boom") (by intro p hp; simp at hp) (by decide) rfl

/-! Claims about the default-value and default-factory variants
(C8, C10, C6). -/

/-- C8: on a DefaultMunch, both the item lookup and the attribute
lookup of an absent key return the stored default instead of raising,
and after an item write both lookups return the written value. -/
theorem claim_C8_default_value (s : DMState) (k : String) (v : Val)
    (hk : k ∉ munchReserved) (habs : alook s.contents k = none) :
    dm_getitem s k = s.default ∧
    dm_getattr s k = .ok (.val s.default) ∧
    dm_getitem (dm_setitem s k v) k = v ∧
    dm_getattr (dm_setitem s k v) k = .ok (.val v) := by
  have hkd : k ≠ "__default__" := by
    intro hh
    subst hh
    exact hk (by decide)
  refine ⟨?_, ?_, ?_, ?_⟩ <;>
    simp [dm_getitem, dm_getattr, dm_setitem, habs, hk, hkd, alook_dictWrite_self]

theorem claim_C8_witness :
    dm_getitem ⟨[], .vint 0⟩ "missing" = .vint 0 ∧
    dm_getattr ⟨[], .vint 0⟩ "missing" = .ok (.val (.vint 0)) ∧
    dm_getitem (dm_setitem ⟨[], .vint 0⟩ "missing" (.vint 5)) "missing" = .vint 5 ∧
    dm_getattr (dm_setitem ⟨[], .vint 0⟩ "missing" (.vint 5)) "missing" = .ok (.val (.vint 5)) :=
  claim_C8_default_value ⟨[], .vint 0⟩ "missing" (.vint 5) (by decide) rfl

/-- C10: on a DefaultMunch, the get method tests membership before any
item lookup, so for an absent key it returns its explicit fallback
argument (None when omitted) rather than the stored default, even
though a plain item lookup of the same key returns the default. -/
theorem claim_C10_get_fallback (s : DMState) (k : String) (e : Val)
    (habs : alook s.contents k = none) :
    dm_get s k .vnone = .vnone ∧ dm_get s k e = e ∧ dm_getitem s k = s.default := by
  simp [dm_get, dm_contains, habs, dm_getitem]

theorem claim_C10_witness :
    dm_get ⟨[], .vint 0⟩ "missing" .vnone = .vnone ∧
    dm_get ⟨[], .vint 0⟩ "missing" (.vstr "fb") = .vstr "fb" ∧
    dm_getitem ⟨[], .vint 0⟩ "missing" = .vint 0 :=
  claim_C10_get_fallback ⟨[], .vint 0⟩ "missing" (.vstr "fb") rfl

/-- C6: on a DefaultFactoryMunch, looking up an absent key (by item or
by attribute) invokes the factory exactly once, stores the produced
value under the key and returns it; afterwards the key is a member and
appears among the keys, and a second lookup returns the same stored
object with no further factory call. -/
theorem claim_C6_factory_once (s : DFMState) (k : String)
    (hk : k ∉ munchReserved) (habs : alook s.contents k = none) :
    (dfm_getitem s k).2.2 = 1 ∧
    alook (dfm_getitem s k).2.1.contents k = some (dfm_getitem s k).1 ∧
    dfm_contains (dfm_getitem s k).2.1 k = true ∧
    k ∈ (dfm_getitem s k).2.1.contents.map Prod.fst ∧
    dfm_getitem (dfm_getitem s k).2.1 k = ((dfm_getitem s k).1, (dfm_getitem s k).2.1, 0) ∧
    dfm_getattr s k = (.val (dfm_getitem s k).1, (dfm_getitem s k).2) := by
  have h1 : alook (dictWrite s.contents k (Val.vobj s.nextId)) k = some (Val.vobj s.nextId) :=
    alook_dictWrite_self s.contents k (Val.vobj s.nextId)
  refine ⟨?_, ?_, ?_, ?_, ?_, ?_⟩
  · simp [dfm_getitem, habs]
  · simp [dfm_getitem, habs, h1]
  · simp [dfm_contains, dfm_getitem, habs, h1]
  · simp only [dfm_getitem, habs]
    exact List.mem_map.mpr ⟨_, alook_mem h1, rfl⟩
  · simp [dfm_getitem, habs, h1]
  · simp [dfm_getattr, dfm_getitem, habs, hk]

theorem claim_C6_witness :
    (dfm_getitem ⟨[], 0⟩ "missing").2.2 = 1 ∧
    alook (dfm_getitem ⟨[], 0⟩ "missing").2.1.contents "missing" =
      some (dfm_getitem ⟨[], 0⟩ "missing").1 ∧
    dfm_contains (dfm_getitem ⟨[], 0⟩ "missing").2.1 "missing" = true ∧
    "missing" ∈ (dfm_getitem ⟨[], 0⟩ "missing").2.1.contents.map Prod.fst ∧
    dfm_getitem (dfm_getitem ⟨[], 0⟩ "missing").2.1 "missing" =
      ((dfm_getitem ⟨[], 0⟩ "missing").1, (dfm_getitem ⟨[], 0⟩ "missing").2.1, 0) ∧
    dfm_getattr ⟨[], 0⟩ "missing" =
      (.val (dfm_getitem ⟨[], 0⟩ "missing").1, (dfm_getitem ⟨[], 0⟩ "missing").2) :=
  claim_C6_factory_once ⟨[], 0⟩ "missing" (by decide) rfl

/-! Claim about the compound-key flattening helper (C9). -/

theorem nest_empty_chain : ∀ (path : List String) (v : Val), path ≠ [] →
    nest path [] v = .ok (nestChain path v)
  | [], _, hp => absurd rfl hp
  | [_], _, _ => rfl
  | k :: k2 :: rest, v, _ => by
    have ih := nest_empty_chain (k2 :: rest) v (by simp)
    simp [nest, alook, ih, nestChain, dictWrite]

/-- C9: the flattening helper splits each key on the separator and
inserts the value along the resulting path: inserting one compound key
into an empty mapping yields the nested single chain, and the
documented example produces the documented nested mapping. -/
theorem claim_C9_splitnest :
    (∀ (path : List String) (v : Val), path ≠ [] →
      nest path [] v = .ok (nestChain path v)) ∧
    splitnest [("one.two", .vint 1), ("one.three", .vint 2), ("two.one", .vint 3)] "." =
      .ok [("one", .ndict [("two", .scalar (.vint 1)), ("three", .scalar (.vint 2))]),
           ("two", .ndict [("one", .scalar (.vint 3))])] := by
  constructor
  · exact nest_empty_chain
  · rfl

theorem claim_C9_witness :
    nest ["a", "b"] [] (.vint 5) = .ok (nestChain ["a", "b"] (.vint 5)) :=
  claim_C9_splitnest.1 ["a", "b"] (.vint 5) (by simp)

/-! Round-trip machinery for the tree model (C2). -/

theorem pyval_strong_ind (P : PyVal → Prop)
    (h : ∀ x, (∀ y : PyVal, sizeOf y < sizeOf x → P y) → P x) : ∀ x, P x := by
  have main : ∀ n (x : PyVal), sizeOf x ≤ n → P x := by
    intro n
    induction n with
    | zero =>
      intro x hx
      exact h x (fun y hy => absurd (Nat.lt_of_lt_of_le hy hx) (Nat.not_lt_zero _))
    | succ n ih =>
      intro x hx
      exact h x (fun y hy => ih y (Nat.le_of_lt_succ (Nat.lt_of_lt_of_le hy hx)))
  exact fun x => main (sizeOf x) x (Nat.le_refl _)

theorem sizeOf_snd_lt_of_mem {k : String} {v : PyVal} {es : List (String × PyVal)}
    (h : (k, v) ∈ es) : sizeOf v < sizeOf es := by
  have h1 := List.sizeOf_lt_of_mem h
  have h2 : sizeOf (k, v) = 1 + sizeOf k + sizeOf v := rfl
  omega

theorem sizeOf_lt_mapv {b : Bool} {es : List (String × PyVal)} {k : String} {v : PyVal}
    (h : (k, v) ∈ es) : sizeOf v < sizeOf (PyVal.mapv b es) := by
  have h1 := sizeOf_snd_lt_of_mem h
  have h2 : sizeOf (PyVal.mapv b es) = 1 + sizeOf b + sizeOf es := by
    simp [PyVal.mapv.sizeOf_spec]
  omega

theorem sizeOf_lt_listv {xs : List PyVal} {x : PyVal} (h : x ∈ xs) :
    sizeOf x < sizeOf (PyVal.listv xs) := by
  have h1 := List.sizeOf_lt_of_mem h
  have h2 : sizeOf (PyVal.listv xs) = 1 + sizeOf xs := by
    simp [PyVal.listv.sizeOf_spec]
  omega

theorem sizeOf_lt_tupv {xs : List PyVal} {x : PyVal} (h : x ∈ xs) :
    sizeOf x < sizeOf (PyVal.tupv xs) := by
  have h1 := List.sizeOf_lt_of_mem h
  have h2 : sizeOf (PyVal.tupv xs) = 1 + sizeOf xs := by
    simp [PyVal.tupv.sizeOf_spec]
  omega

theorem list_all_congr {α : Type} {l : List α} {f g : α → Bool}
    (h : ∀ a ∈ l, f a = g a) : l.all f = l.all g := by
  induction l with
  | nil => rfl
  | cons a rest ih =>
    simp only [List.all_cons]
    rw [h a (List.mem_cons_self a rest), ih (fun b hb => h b (List.mem_cons_of_mem a hb))]

theorem convList_eq_map (m : Bool) (ts : List PyVal) :
    convList m ts = ts.map (convCycles m) := by
  induction ts with
  | nil => simp [convList]
  | cons t rest ih => simp [convList, ih]

theorem convEntries_eq_map (m : Bool) (es : List (String × PyVal)) :
    convEntries m es = es.map (fun p => (p.1, convCycles m p.2)) := by
  induction es with
  | nil => simp [convEntries]
  | cons p rest ih =>
    obtain ⟨k, v⟩ := p
    simp [convEntries, ih]

theorem retagList_eq_map (m : Bool) (ts : List PyVal) :
    retagList m ts = ts.map (retag m) := by
  induction ts with
  | nil => simp [retagList]
  | cons t rest ih => simp [retagList, ih]

theorem retagEntries_eq_map (m : Bool) (es : List (String × PyVal)) :
    retagEntries m es = es.map (fun p => (p.1, retag m p.2)) := by
  induction es with
  | nil => simp [retagEntries]
  | cons p rest ih =>
    obtain ⟨k, v⟩ := p
    simp [retagEntries, ih]

theorem retagEntries_keys (m : Bool) (es : List (String × PyVal)) :
    (retagEntries m es).map Prod.fst = es.map Prod.fst := by
  induction es with
  | nil => simp [retagEntries]
  | cons p rest ih =>
    obtain ⟨k, v⟩ := p
    simp [retagEntries, ih]

theorem pyWFEntries_eq_all (es : List (String × PyVal)) :
    pyWFEntries es = es.all (fun p => pyWF p.2) := by
  induction es with
  | nil => simp [pyWFEntries]
  | cons p rest ih =>
    obtain ⟨k, v⟩ := p
    simp [pyWFEntries, ih]

theorem pyWFList_eq_all (xs : List PyVal) :
    pyWFList xs = xs.all pyWF := by
  induction xs with
  | nil => simp [pyWFList]
  | cons x rest ih => simp [pyWFList, ih]

theorem tupleSafeEntries_eq_all (es : List (String × PyVal)) :
    tupleSafeEntries es = es.all (fun p => tupleSafe p.2) := by
  induction es with
  | nil => simp [tupleSafeEntries]
  | cons p rest ih =>
    obtain ⟨k, v⟩ := p
    simp [tupleSafeEntries, ih]

theorem tupleSafeList_eq_all (xs : List PyVal) :
    tupleSafeList xs = xs.all tupleSafe := by
  induction xs with
  | nil => simp [tupleSafeList]
  | cons x rest ih => simp [tupleSafeList, ih]

theorem tupleSafeTup_eq_all (ts : List PyVal) :
    tupleSafeTup ts = ts.all (fun t => !t.isListv && tupleSafe t) := by
  induction ts with
  | nil => simp [tupleSafeTup]
  | cons t rest ih => simp [tupleSafeTup, ih, Bool.and_assoc]

theorem dictWrite_append_of_not_mem {α : Type} {es : List (String × α)} {k : String} (v : α)
    (h : k ∉ es.map Prod.fst) : dictWrite es k v = es ++ [(k, v)] := by
  induction es with
  | nil => simp [dictWrite]
  | cons p rest ih =>
    obtain ⟨k1, w⟩ := p
    have h1 : k1 ≠ k := by
      intro hh
      exact h (by simp [hh])
    have h2 : k ∉ rest.map Prod.fst := by
      intro hh
      exact h (by simp [hh])
    simp [dictWrite, h1, ih h2]

theorem foldl_dictWrite_append {α : Type} (ps : List (String × α)) :
    ∀ d0 : List (String × α),
    nodupKeys (ps.map Prod.fst) = true →
    (∀ k, k ∈ ps.map Prod.fst → k ∉ d0.map Prod.fst) →
    ps.foldl (fun d kv => dictWrite d kv.1 kv.2) d0 = d0 ++ ps := by
  induction ps with
  | nil => intro d0 _ _; simp
  | cons p rest ih =>
    intro d0 hnd hdis
    obtain ⟨k, v⟩ := p
    have hnd1 := @nodupKeys_cons k (rest.map Prod.fst) (by simpa using hnd)
    rw [List.foldl_cons]
    have hw : dictWrite d0 k v = d0 ++ [(k, v)] :=
      dictWrite_append_of_not_mem v (hdis k (by simp))
    rw [hw, ih (d0 ++ [(k, v)]) hnd1.2]
    · simp
    · intro k2 hk2
      simp only [List.map_append, List.mem_append]
      rintro (h0 | h0)
      · exact hdis k2 (by simp [hk2]) h0
      · simp at h0
        subst h0
        exact hnd1.1 hk2

theorem foldl_dictWrite_nil {α : Type} (ps : List (String × α))
    (hnd : nodupKeys (ps.map Prod.fst) = true) :
    ps.foldl (fun d kv => dictWrite d kv.1 kv.2) [] = ps := by
  have := foldl_dictWrite_append ps [] hnd (by intro k _; simp)
  simpa using this

theorem dictWrite_self_eq {α : Type} {es : List (String × α)} {k : String} {v : α}
    (h : alook es k = some v) : dictWrite es k v = es := by
  induction es with
  | nil => simp [alook] at h
  | cons p rest ih =>
    obtain ⟨k1, w⟩ := p
    by_cases h1 : k1 = k
    · subst h1
      simp [alook] at h
      simp [dictWrite, h]
    · simp [alook, h1] at h
      simp [dictWrite, h1, ih h]

theorem foldl_dictWrite_id {α : Type} (ps : List (String × α)) :
    ∀ cur : List (String × α), (∀ p ∈ ps, alook cur p.1 = some p.2) →
    ps.foldl (fun d kv => dictWrite d kv.1 kv.2) cur = cur := by
  induction ps with
  | nil => intro cur _; rfl
  | cons p rest ih =>
    intro cur h
    obtain ⟨k, v⟩ := p
    rw [List.foldl_cons]
    have hw : dictWrite cur k v = cur := dictWrite_self_eq (h (k, v) (by simp))
    rw [hw]
    exact ih cur (fun q hq => h q (List.mem_cons_of_mem _ hq))

theorem convPostZip_map (m : Bool) : ∀ us : List PyVal,
    (∀ t ∈ us, convPost m (retag m t) t = retag m t) →
    convPostZip m (us.map (retag m)) us = us.map (retag m) := by
  intro us
  induction us with
  | nil => intro _; simp [convPostZip]
  | cons t rest ih =>
    intro h
    simp only [List.map_cons]
    rw [convPostZip]
    rw [h t (by simp), ih (fun q hq => h q (List.mem_cons_of_mem _ hq))]

theorem isListv_retag (m : Bool) (x : PyVal) : (retag m x).isListv = x.isListv := by
  cases x <;> simp [retag, PyVal.isListv]

theorem conv_retag_post (m : Bool) : ∀ x : PyVal,
    (pyWF x = true → tupleSafe x = true → convCycles m x = retag m x) ∧
    (pyWF x = true → tupleSafe x = true → x.isListv = false →
      convPost m (retag m x) x = retag m x) := by
  apply pyval_strong_ind
  intro x IH
  cases x with
  | atomv a =>
    constructor
    · intro _ _
      simp [convCycles, convPre, convPost, retag]
    · intro _ _ _
      simp [convPost, retag]
  | mapv b es =>
    have hbody : pyWF (PyVal.mapv b es) = true → tupleSafe (PyVal.mapv b es) = true →
        convEntries m es = retagEntries m es := by
      intro hwf hsafe
      have hw : nodupKeys (es.map Prod.fst) = true ∧ pyWFEntries es = true := by
        simpa [pyWF, Bool.and_eq_true] using hwf
      have hse : tupleSafeEntries es = true := by simpa [tupleSafe] using hsafe
      rw [convEntries_eq_map, retagEntries_eq_map]
      apply List.map_congr_left
      intro p hp
      have hsz : sizeOf p.2 < sizeOf (PyVal.mapv b es) :=
        @sizeOf_lt_mapv b _ _ _ (by simpa using hp)
      have hwp : pyWF p.2 = true := by
        have := hw.2
        rw [pyWFEntries_eq_all, List.all_eq_true] at this
        exact this p hp
      have hsp : tupleSafe p.2 = true := by
        rw [tupleSafeEntries_eq_all, List.all_eq_true] at hse
        exact hse p hp
      have := (IH p.2 hsz).1 hwp hsp
      simp [this]
    constructor
    · intro hwf hsafe
      have hw : nodupKeys (es.map Prod.fst) = true ∧ pyWFEntries es = true := by
        simpa [pyWF, Bool.and_eq_true] using hwf
      have hent := hbody hwf hsafe
      have hnd2 : nodupKeys ((retagEntries m es).map Prod.fst) = true := by
        rw [retagEntries_keys]
        exact hw.1
      calc convCycles m (PyVal.mapv b es)
          = PyVal.mapv m ((convEntries m es).foldl (fun d kv => dictWrite d kv.1 kv.2) []) := by
            simp [convCycles, convPre, convPost]
        _ = PyVal.mapv m (retagEntries m es) := by
            rw [hent, foldl_dictWrite_nil _ hnd2]
        _ = retag m (PyVal.mapv b es) := by simp [retag]
    · intro hwf hsafe _
      have hw : nodupKeys (es.map Prod.fst) = true ∧ pyWFEntries es = true := by
        simpa [pyWF, Bool.and_eq_true] using hwf
      have hent := hbody hwf hsafe
      have hnd2 : nodupKeys ((retagEntries m es).map Prod.fst) = true := by
        rw [retagEntries_keys]
        exact hw.1
      have hid : (retagEntries m es).foldl (fun d kv => dictWrite d kv.1 kv.2)
          (retagEntries m es) = retagEntries m es := by
        apply foldl_dictWrite_id
        intro p hp
        exact mem_alook_nodup hnd2 (by simpa using hp)
      calc convPost m (retag m (PyVal.mapv b es)) (PyVal.mapv b es)
          = PyVal.mapv m ((convEntries m es).foldl (fun d kv => dictWrite d kv.1 kv.2)
              (retagEntries m es)) := by
            simp [retag, convPost]
        _ = PyVal.mapv m (retagEntries m es) := by rw [hent, hid]
        _ = retag m (PyVal.mapv b es) := by simp [retag]
  | listv xs =>
    constructor
    · intro hwf hsafe
      have hw : pyWFList xs = true := by simpa [pyWF] using hwf
      have hs : tupleSafeList xs = true := by simpa [tupleSafe] using hsafe
      have hitems : convList m xs = retagList m xs := by
        rw [convList_eq_map, retagList_eq_map]
        apply List.map_congr_left
        intro t ht
        have hsz := sizeOf_lt_listv ht
        have hwt : pyWF t = true := by
          rw [pyWFList_eq_all, List.all_eq_true] at hw
          exact hw t ht
        have hst : tupleSafe t = true := by
          rw [tupleSafeList_eq_all, List.all_eq_true] at hs
          exact hs t ht
        exact (IH t hsz).1 hwt hst
      calc convCycles m (PyVal.listv xs)
          = PyVal.listv ([] ++ convList m xs) := by
            simp [convCycles, convPre, convPost]
        _ = retag m (PyVal.listv xs) := by simp [hitems, retag]
    · intro _ _ h3
      simp [PyVal.isListv] at h3
  | tupv ts =>
    have hitems : pyWF (PyVal.tupv ts) = true → tupleSafe (PyVal.tupv ts) = true →
        convList m ts = retagList m ts ∧
        convPostZip m (retagList m ts) ts = retagList m ts := by
      intro hwf hsafe
      have hw : pyWFList ts = true := by simpa [pyWF] using hwf
      have hs : tupleSafeTup ts = true := by simpa [tupleSafe] using hsafe
      rw [pyWFList_eq_all, List.all_eq_true] at hw
      rw [tupleSafeTup_eq_all, List.all_eq_true] at hs
      have hpt : ∀ t ∈ ts, pyWF t = true ∧ tupleSafe t = true ∧ t.isListv = false := by
        intro t ht
        have := hs t ht
        simp [Bool.and_eq_true] at this
        exact ⟨hw t ht, this.2, by simpa using this.1⟩
      constructor
      · rw [convList_eq_map, retagList_eq_map]
        apply List.map_congr_left
        intro t ht
        exact (IH t (sizeOf_lt_tupv ht)).1 (hpt t ht).1 (hpt t ht).2.1
      · rw [retagList_eq_map]
        apply convPostZip_map
        intro t ht
        exact (IH t (sizeOf_lt_tupv ht)).2 (hpt t ht).1 (hpt t ht).2.1 (hpt t ht).2.2
    constructor
    · intro hwf hsafe
      obtain ⟨h1, h2⟩ := hitems hwf hsafe
      calc convCycles m (PyVal.tupv ts)
          = PyVal.tupv (convPostZip m (convList m ts) ts) := by
            simp [convCycles, convPre, convPost]
        _ = PyVal.tupv (retagList m ts) := by rw [h1, h2]
        _ = retag m (PyVal.tupv ts) := by simp [retag]
    · intro hwf hsafe _
      obtain ⟨h1, h2⟩ := hitems hwf hsafe
      calc convPost m (retag m (PyVal.tupv ts)) (PyVal.tupv ts)
          = PyVal.tupv (convPostZip m (retagList m ts) ts) := by
            simp [retag, convPost]
        _ = retag m (PyVal.tupv ts) := by rw [h2]; simp [retag]

theorem pyWF_retag (m : Bool) : ∀ x : PyVal, pyWF (retag m x) = pyWF x := by
  apply pyval_strong_ind
  intro x IH
  cases x with
  | atomv a => simp [retag]
  | mapv b es =>
    simp only [retag, pyWF, retagEntries_keys]
    congr 1
    rw [pyWFEntries_eq_all, pyWFEntries_eq_all, retagEntries_eq_map, List.all_map]
    apply list_all_congr
    intro p hp
    exact IH p.2 (@sizeOf_lt_mapv b _ _ _ (by simpa using hp))
  | listv xs =>
    simp only [retag, pyWF]
    rw [pyWFList_eq_all, pyWFList_eq_all, retagList_eq_map, List.all_map]
    apply list_all_congr
    intro t ht
    exact IH t (sizeOf_lt_listv ht)
  | tupv ts =>
    simp only [retag, pyWF]
    rw [pyWFList_eq_all, pyWFList_eq_all, retagList_eq_map, List.all_map]
    apply list_all_congr
    intro t ht
    exact IH t (sizeOf_lt_tupv ht)

theorem tupleSafe_retag (m : Bool) : ∀ x : PyVal, tupleSafe (retag m x) = tupleSafe x := by
  apply pyval_strong_ind
  intro x IH
  cases x with
  | atomv a => simp [retag]
  | mapv b es =>
    simp only [retag, tupleSafe]
    rw [tupleSafeEntries_eq_all, tupleSafeEntries_eq_all, retagEntries_eq_map, List.all_map]
    apply list_all_congr
    intro p hp
    exact IH p.2 (@sizeOf_lt_mapv b _ _ _ (by simpa using hp))
  | listv xs =>
    simp only [retag, tupleSafe]
    rw [tupleSafeList_eq_all, tupleSafeList_eq_all, retagList_eq_map, List.all_map]
    apply list_all_congr
    intro t ht
    exact IH t (sizeOf_lt_listv ht)
  | tupv ts =>
    simp only [retag, tupleSafe]
    rw [tupleSafeTup_eq_all, tupleSafeTup_eq_all, retagList_eq_map, List.all_map]
    apply list_all_congr
    intro t ht
    simp only [Function.comp_apply]
    rw [isListv_retag, IH t (sizeOf_lt_tupv ht)]

theorem retag_retag (m1 m2 : Bool) : ∀ x : PyVal, retag m2 (retag m1 x) = retag m2 x := by
  apply pyval_strong_ind
  intro x IH
  cases x with
  | atomv a => simp [retag]
  | mapv b es =>
    simp only [retag]
    congr 1
    rw [retagEntries_eq_map, retagEntries_eq_map, retagEntries_eq_map, List.map_map]
    apply List.map_congr_left
    intro p hp
    have := IH p.2 (@sizeOf_lt_mapv b _ _ _ (by simpa using hp))
    simp [this]
  | listv xs =>
    simp only [retag]
    congr 1
    rw [retagList_eq_map, retagList_eq_map, retagList_eq_map, List.map_map]
    apply List.map_congr_left
    intro t ht
    exact IH t (sizeOf_lt_listv ht)
  | tupv ts =>
    simp only [retag]
    congr 1
    rw [retagList_eq_map, retagList_eq_map, retagList_eq_map, List.map_map]
    apply List.map_congr_left
    intro t ht
    exact IH t (sizeOf_lt_tupv ht)

theorem pyEqLook_alook (k : String) (v : PyVal) : ∀ es2 : List (String × PyVal),
    pyEqLook k v es2 = match alook es2 k with
      | some w => pyEq v w
      | none => false := by
  intro es2
  induction es2 with
  | nil => simp [pyEqLook, alook]
  | cons p rest ih =>
    obtain ⟨k2, w⟩ := p
    by_cases h : k2 = k
    · subst h
      simp [pyEqLook, alook]
    · simp [pyEqLook, alook, h, ih]

theorem pyEqEntries_of_pointwise : ∀ (sub es2 : List (String × PyVal)),
    (∀ p ∈ sub, ∃ w, alook es2 p.1 = some w ∧ pyEq p.2 w = true) →
    pyEqEntries sub es2 = true := by
  intro sub es2
  induction sub with
  | nil => intro _; simp [pyEqEntries]
  | cons p rest ih =>
    intro h
    obtain ⟨k, v⟩ := p
    obtain ⟨w, hw, hpe⟩ := h (k, v) (by simp)
    rw [pyEqEntries]
    rw [pyEqLook_alook, hw]
    simp only [hpe, Bool.true_and]
    exact ih (fun q hq => h q (List.mem_cons_of_mem _ hq))

theorem pyEqList_map_self {f : PyVal → PyVal} : ∀ xs : List PyVal,
    (∀ t ∈ xs, pyEq (f t) t = true) → pyEqList (xs.map f) xs = true := by
  intro xs
  induction xs with
  | nil => intro _; simp [pyEqList]
  | cons t rest ih =>
    intro h
    simp only [List.map_cons]
    rw [pyEqList]
    rw [h t (by simp), ih (fun q hq => h q (List.mem_cons_of_mem _ hq))]
    rfl

theorem pyEq_retag (m : Bool) : ∀ x : PyVal, pyWF x = true → pyEq (retag m x) x = true := by
  apply pyval_strong_ind
  intro x IH
  cases x with
  | atomv a =>
    intro _
    simp [retag, pyEq]
  | mapv b es =>
    intro hwf
    have hw : nodupKeys (es.map Prod.fst) = true ∧ pyWFEntries es = true := by
      simpa [pyWF, Bool.and_eq_true] using hwf
    rw [retag, pyEq]
    have hlen : (retagEntries m es).length = es.length := by
      rw [retagEntries_eq_map]
      simp
    rw [hlen]
    simp only [beq_self_eq_true, Bool.true_and]
    apply pyEqEntries_of_pointwise
    intro p hp
    rw [retagEntries_eq_map] at hp
    obtain ⟨q, hq, rfl⟩ := List.mem_map.mp hp
    refine ⟨q.2, mem_alook_nodup hw.1 (by simpa using hq), ?_⟩
    have hwq : pyWF q.2 = true := by
      have := hw.2
      rw [pyWFEntries_eq_all, List.all_eq_true] at this
      exact this q hq
    exact IH q.2 (@sizeOf_lt_mapv b _ _ _ (by simpa using hq)) hwq
  | listv xs =>
    intro hwf
    have hw : pyWFList xs = true := by simpa [pyWF] using hwf
    rw [pyWFList_eq_all, List.all_eq_true] at hw
    rw [retag, pyEq, retagList_eq_map]
    apply pyEqList_map_self
    intro t ht
    exact IH t (sizeOf_lt_listv ht) (hw t ht)
  | tupv ts =>
    intro hwf
    have hw : pyWFList ts = true := by simpa [pyWF] using hwf
    rw [pyWFList_eq_all, List.all_eq_true] at hw
    rw [retag, pyEq, retagList_eq_map]
    apply pyEqList_map_self
    intro t ht
    exact IH t (sizeOf_lt_tupv ht) (hw t ht)

/-- C2, counterexample: a list nested directly inside a tuple breaks
the round trip, because post_munchify on a tuple re-runs the fill on
already filled children and each fill extends the list again:
munchify(([1],)) evaluates to ([1, 1],) and unmunchifying that yields
([1, 1, 1, 1],), which is not Python-equal to the input ([1],). -/
theorem claim_C2_roundtrip_counterexample :
    pyEq (unmunchifyT (munchifyT (.tupv [.listv [.atomv (.vint 1)]])))
      (.tupv [.listv [.atomv (.vint 1)]]) = false := by
  simp [munchifyT, unmunchifyT, convCycles, convPre, convPost, convList, convEntries,
    convPostZip, pyEq, pyEqList, pyEqEntries, pyEqLook]

/-- C2, amended: for every finite acyclic value built from plain
mappings, lists, tuples and scalars in which no list occurs as a tuple
item (directly or through nested tuples), converting to container form
and back is the identity up to Python equality:
unmunchify(munchify(x)) == x. -/
theorem claim_C2_roundtrip_amended (x : PyVal) (hwf : pyWF x = true)
    (hsafe : tupleSafe x = true) :
    pyEq (unmunchifyT (munchifyT x)) x = true := by
  have h1 : munchifyT x = retag true x := (conv_retag_post true x).1 hwf hsafe
  have h2 : unmunchifyT (retag true x) = retag false (retag true x) :=
    (conv_retag_post false (retag true x)).1
      (by rw [pyWF_retag]; exact hwf) (by rw [tupleSafe_retag]; exact hsafe)
  rw [munchifyT] at h1
  rw [unmunchifyT] at h2
  rw [munchifyT, unmunchifyT, h1, h2, retag_retag]
  exact pyEq_retag false x hwf

theorem claim_C2_witness :
    pyEq (unmunchifyT (munchifyT (.mapv false
      [("k", .tupv [.atomv (.vstr "s"), .mapv false [("in", .atomv (.vint 2))]]),
       ("l", .listv [.atomv (.vint 3)])])))
      (.mapv false
        [("k", .tupv [.atomv (.vstr "s"), .mapv false [("in", .atomv (.vint 2))]]),
         ("l", .listv [.atomv (.vint 3)])]) = true :=
  claim_C2_roundtrip_amended _
    (by simp [pyWF, pyWFEntries, pyWFList, nodupKeys])
    (by simp [tupleSafe, tupleSafeEntries, tupleSafeList, tupleSafeTup, PyVal.isListv])

/-! Basic lemmas about the heap model. -/

theorem hget_mem : ∀ {h : Heap} {i : Nat} {nd : HNode}, hget h i = some nd → (i, nd) ∈ h := by
  intro h
  induction h with
  | nil => intro i nd hh; simp [hget] at hh
  | cons p rest ih =>
    intro i nd hh
    obtain ⟨a, n⟩ := p
    by_cases h1 : a = i
    · subst h1
      simp [hget] at hh
      simp [hh]
    · simp [hget, h1] at hh
      exact List.mem_cons_of_mem _ (ih hh)

theorem hget_hset_self {h : Heap} {a : Nat} {old : HNode} (nd : HNode)
    (hh : hget h a = some old) : hget (hset h a nd) a = some nd := by
  induction h with
  | nil => simp [hget] at hh
  | cons p rest ih =>
    obtain ⟨b, n⟩ := p
    by_cases h1 : b = a
    · subst h1
      simp [hset, hget]
    · simp [hget, h1] at hh
      simp [hset, hget, h1, ih hh]

theorem hget_hset_ne {h : Heap} {a b : Nat} (nd : HNode) (hne : b ≠ a) :
    hget (hset h a nd) b = hget h b := by
  induction h with
  | nil => simp [hset, hget]
  | cons p rest ih =>
    obtain ⟨c, n⟩ := p
    by_cases h1 : c = a
    · subst h1
      simp [hset, hget, Ne.symm hne, ih]
    · simp [hset, hget, h1, ih]

theorem hset_of_not_found {h : Heap} {a : Nat} {nd : HNode} (hh : hget h a = none) :
    hset h a nd = h := by
  induction h with
  | nil => rfl
  | cons p rest ih =>
    obtain ⟨c, n⟩ := p
    by_cases h1 : c = a
    · subst h1
      simp [hget] at hh
    · simp [hget, h1] at hh
      simp [hset, h1, ih hh]

theorem hset_map_fst (h : Heap) (a : Nat) (nd : HNode) :
    (hset h a nd).map Prod.fst = h.map Prod.fst := by
  induction h with
  | nil => rfl
  | cons p rest ih =>
    obtain ⟨c, n⟩ := p
    by_cases h1 : c = a
    · subst h1
      simp [hset]
    · simp [hset, h1, ih]

theorem foldl_max_le (σ : Heap) : ∀ acc : Nat,
    acc ≤ σ.foldl (fun a p => max a (p.1 + 1)) acc := by
  induction σ with
  | nil => intro acc; exact Nat.le_refl _
  | cons p rest ih =>
    intro acc
    exact Nat.le_trans (Nat.le_max_left acc (p.1 + 1)) (ih (max acc (p.1 + 1)))

theorem foldl_max_mem (σ : Heap) : ∀ (acc : Nat) (p : Nat × HNode), p ∈ σ →
    p.1 < σ.foldl (fun a q => max a (q.1 + 1)) acc := by
  induction σ with
  | nil => intro acc p hp; simp at hp
  | cons q rest ih =>
    intro acc p hp
    rcases List.mem_cons.mp hp with h0 | h0
    · subst h0
      calc p.1 < p.1 + 1 := Nat.lt_succ_self _
        _ ≤ max acc (p.1 + 1) := Nat.le_max_right _ _
        _ ≤ rest.foldl (fun a q => max a (q.1 + 1)) (max acc (p.1 + 1)) := foldl_max_le rest _
    · exact ih (max acc (q.1 + 1)) p h0

theorem mem_lt_maxIdPlus {σ : Heap} {p : Nat × HNode} (hp : p ∈ σ) : p.1 < maxIdPlus σ :=
  foldl_max_mem σ 0 p hp

theorem hget_lt_maxIdPlus {σ : Heap} {i : Nat} (h : (hget σ i).isSome = true) :
    i < maxIdPlus σ := by
  rcases Option.isSome_iff_exists.mp h with ⟨nd, hnd⟩
  exact mem_lt_maxIdPlus (hget_mem hnd)

theorem heapClosed_children {σ : Heap} (hc : heapClosed σ = true) {i : Nat} {nd : HNode}
    (h : hget σ i = some nd) : ∀ c ∈ nodeChildren nd, (hget σ c).isSome = true := by
  intro c hcc
  rw [heapClosed, List.all_eq_true] at hc
  have := hc (i, nd) (hget_mem h)
  rw [List.all_eq_true] at this
  exact this c hcc

theorem goodCfg_init (σ : Heap) : GoodCfg σ (initState σ) := by
  refine ⟨?_, ?_, ?_, ?_, ?_, ?_⟩
  · intro a ha
    rcases List.mem_map.mp ha with ⟨p, hp, rfl⟩
    exact mem_lt_maxIdPlus hp
  · intro a _
    rfl
  · intro a ha
    exact hget_lt_maxIdPlus ha
  · intro p hp
    simp [initState] at hp
  · intro p hp
    simp [initState] at hp
  · intro a js hnone hsome
    rw [show (initState σ).heap = σ from rfl] at hsome
    rw [hnone] at hsome
    exact absurd hsome (by simp)

theorem heapEvo_refl (s : CState) : HeapEvo s s :=
  ⟨fun _ _ h => h, Nat.le_refl _, fun a b0 cur0 h => ⟨cur0, h⟩,
   fun a cur0 h => ⟨cur0, h⟩, fun _ _ h => h⟩

theorem heapEvo_trans {s1 s2 s3 : CState} (h1 : HeapEvo s1 s2) (h2 : HeapEvo s2 s3) :
    HeapEvo s1 s3 := by
  refine ⟨?_, Nat.le_trans h1.nextLe h2.nextLe, ?_, ?_, ?_⟩
  · intro a b hb
    exact h2.seenExt a b (h1.seenExt a b hb)
  · intro a b0 cur0 h
    rcases h1.mapKeep a b0 cur0 h with ⟨cur1, hc1⟩
    exact h2.mapKeep a b0 cur1 hc1
  · intro a cur0 h
    rcases h1.listKeep a cur0 h with ⟨cur1, hc1⟩
    exact h2.listKeep a cur1 hc1
  · intro a js h
    exact h2.tupKeep a js (h1.tupKeep a js h)

theorem alloc_evo {σ : Heap} {s : CState} (nd : HNode) (hc : GoodCfg σ s) :
    HeapEvo s (allocNode s nd).1 := by
  have hfresh : ∀ nd0 : HNode, hget s.heap s.next = some nd0 → False := by
    intro nd0 h0
    have := hc.fresh s.next (List.mem_map.mpr ⟨(s.next, nd0), hget_mem h0, rfl⟩)
    omega
  refine ⟨?_, Nat.le_succ _, ?_, ?_, ?_⟩
  · intro a b hb
    exact hb
  · intro a b0 cur0 h
    by_cases h1 : s.next = a
    · exact absurd (h1 ▸ h) (fun hh => hfresh _ hh)
    · exact ⟨cur0, by simpa [allocNode, hget, h1] using h⟩
  · intro a cur0 h
    by_cases h1 : s.next = a
    · exact absurd (h1 ▸ h) (fun hh => hfresh _ hh)
    · exact ⟨cur0, by simpa [allocNode, hget, h1] using h⟩
  · intro a js h
    by_cases h1 : s.next = a
    · exact absurd (h1 ▸ h) (fun hh => hfresh _ hh)
    · simpa [allocNode, hget, h1] using h

theorem alloc_good {σ : Heap} {s : CState} (nd : HNode) (hc : GoodCfg σ s)
    (hnd : ∀ js, nd = .htup js → ∀ j ∈ js, PjOK σ j) :
    GoodCfg σ (allocNode s nd).1 := by
  refine ⟨?_, ?_, ?_, ?_, ?_, ?_⟩
  · intro a ha
    simp only [allocNode, List.map_cons, List.mem_cons] at ha
    rcases ha with ha | ha
    · simp [allocNode, ha]
    · have := hc.fresh a ha
      simp [allocNode]
      omega
  · intro a ha
    have hlt := hc.srcLt a ha
    have hne : s.next ≠ a := by omega
    rw [show (allocNode s nd).1.heap = (s.next, nd) :: s.heap from rfl]
    simp [hget, hne]
    exact hc.srcPres a ha
  · intro a ha
    have := hc.srcLt a ha
    simp [allocNode]
    omega
  · intro p hp
    exact hc.seenSrc p hp
  · intro p hp
    exact hc.seenTgt p hp
  · intro a js hnone hsome
    rw [show (allocNode s nd).1.heap = (s.next, nd) :: s.heap from rfl] at hsome
    by_cases h1 : s.next = a
    · simp [hget, h1] at hsome
      exact hnd js hsome
    · simp [hget, h1] at hsome
      exact hc.tupTgt a js hnone hsome

theorem register_evo {s : CState} {i : Nat} (j : Nat) (hun : nlook s.seen i = none) :
    HeapEvo s (registerSeen s i j) := by
  refine ⟨?_, Nat.le_refl _, ?_, ?_, ?_⟩
  · intro a b hb
    have hne : i ≠ a := by
      intro hh
      rw [hh] at hun
      rw [hun] at hb
      exact Option.noConfusion hb
    simpa [registerSeen, nlook, hne] using hb
  · intro a b0 cur0 h
    exact ⟨cur0, h⟩
  · intro a cur0 h
    exact ⟨cur0, h⟩
  · intro a js h
    exact h

theorem register_good {σ : Heap} {s : CState} {i j : Nat} (hc : GoodCfg σ s)
    (hi : (hget σ i).isSome = true) (hj : PjOK σ j) :
    GoodCfg σ (registerSeen s i j) := by
  refine ⟨hc.fresh, hc.srcPres, hc.srcLt, ?_, ?_, hc.tupTgt⟩
  · intro p hp
    rcases List.mem_cons.mp hp with h0 | h0
    · subst h0
      exact hi
    · exact hc.seenSrc p h0
  · intro p hp
    rcases List.mem_cons.mp hp with h0 | h0
    · subst h0
      exact hj
    · exact hc.seenTgt p h0

theorem setNode_evo_map {s : CState} {pj : Nat} {b0 : Bool} {oldcur newcur : List (String × Nat)}
    (hold : hget s.heap pj = some (.hmap b0 oldcur)) :
    HeapEvo s (setNode s pj (.hmap b0 newcur)) := by
  refine ⟨fun _ _ h => h, Nat.le_refl _, ?_, ?_, ?_⟩
  · intro a b1 cur0 h
    by_cases h1 : a = pj
    · subst h1
      rw [hold] at h
      injection h with h
      injection h with hb _
      subst hb
      exact ⟨newcur, hget_hset_self _ hold⟩
    · exact ⟨cur0, by rw [show (setNode s pj (.hmap b0 newcur)).heap =
        hset s.heap pj (.hmap b0 newcur) from rfl, hget_hset_ne _ h1]; exact h⟩
  · intro a cur0 h
    by_cases h1 : a = pj
    · subst h1
      rw [hold] at h
      exact absurd h (by simp)
    · exact ⟨cur0, by rw [show (setNode s pj (.hmap b0 newcur)).heap =
        hset s.heap pj (.hmap b0 newcur) from rfl, hget_hset_ne _ h1]; exact h⟩
  · intro a js h
    by_cases h1 : a = pj
    · subst h1
      rw [hold] at h
      exact absurd h (by simp)
    · rw [show (setNode s pj (.hmap b0 newcur)).heap =
        hset s.heap pj (.hmap b0 newcur) from rfl, hget_hset_ne _ h1]
      exact h

theorem setNode_evo_list {s : CState} {pj : Nat} {oldcur newcur : List Nat}
    (hold : hget s.heap pj = some (.hlist oldcur)) :
    HeapEvo s (setNode s pj (.hlist newcur)) := by
  refine ⟨fun _ _ h => h, Nat.le_refl _, ?_, ?_, ?_⟩
  · intro a b1 cur0 h
    by_cases h1 : a = pj
    · subst h1
      rw [hold] at h
      exact absurd h (by simp)
    · exact ⟨cur0, by rw [show (setNode s pj (.hlist newcur)).heap =
        hset s.heap pj (.hlist newcur) from rfl, hget_hset_ne _ h1]; exact h⟩
  · intro a cur0 h
    by_cases h1 : a = pj
    · subst h1
      exact ⟨newcur, hget_hset_self _ hold⟩
    · exact ⟨cur0, by rw [show (setNode s pj (.hlist newcur)).heap =
        hset s.heap pj (.hlist newcur) from rfl, hget_hset_ne _ h1]; exact h⟩
  · intro a js h
    by_cases h1 : a = pj
    · subst h1
      rw [hold] at h
      exact absurd h (by simp)
    · rw [show (setNode s pj (.hlist newcur)).heap =
        hset s.heap pj (.hlist newcur) from rfl, hget_hset_ne _ h1]
      exact h

theorem setNode_good {σ : Heap} {s : CState} {pj : Nat} {nd : HNode} (hc : GoodCfg σ s)
    (hpj : hget σ pj = none) (hnd : ∀ js, nd ≠ HNode.htup js) :
    GoodCfg σ (setNode s pj nd) := by
  refine ⟨?_, ?_, hc.srcLt, hc.seenSrc, hc.seenTgt, ?_⟩
  · intro a ha
    rw [show (setNode s pj nd).heap = hset s.heap pj nd from rfl, hset_map_fst] at ha
    exact hc.fresh a ha
  · intro a ha
    have hne : a ≠ pj := by
      intro hh
      rw [hh, hpj] at ha
      exact Bool.noConfusion ha
    rw [show (setNode s pj nd).heap = hset s.heap pj nd from rfl, hget_hset_ne _ hne]
    exact hc.srcPres a ha
  · intro a js hnone hsome
    by_cases h1 : a = pj
    · rw [show (setNode s pj nd).heap = hset s.heap pj nd from rfl, h1] at hsome
      cases hold : hget s.heap pj with
      | none =>
        rw [hset_of_not_found hold, hold] at hsome
        exact Option.noConfusion hsome
      | some old =>
        rw [hget_hset_self nd hold] at hsome
        injection hsome with hsome
        exact absurd hsome (hnd js)
    · rw [show (setNode s pj nd).heap = hset s.heap pj nd from rfl, hget_hset_ne _ h1] at hsome
      exact hc.tupTgt a js hnone hsome

theorem nlook_mem : ∀ {sn : List (Nat × Nat)} {a b : Nat}, nlook sn a = some b → (a, b) ∈ sn := by
  intro sn
  induction sn with
  | nil => intro a b hh; simp [nlook] at hh
  | cons p rest ih =>
    intro a b hh
    obtain ⟨c, d⟩ := p
    by_cases h1 : c = a
    · subst h1
      simp [nlook] at hh
      simp [hh]
    · simp [nlook, h1] at hh
      exact List.mem_cons_of_mem _ (ih hh)

theorem nlook_register_self (s : CState) (i j : Nat) :
    nlook (registerSeen s i j).seen i = some j := by
  simp [registerSeen, nlook]

theorem pjok_next {σ : Heap} {s : CState} (hc : GoodCfg σ s) : PjOK σ s.next := by
  cases hh : hget σ s.next with
  | none => exact Or.inl hh
  | some nd =>
    have := hc.srcLt s.next (by simp [hh])
    omega

theorem register_evo_from {s s1 : CState} {i : Nat} (j : Nat)
    (hun : nlook s.seen i = none) (hevo : HeapEvo s s1) :
    HeapEvo s (registerSeen s1 i j) := by
  refine ⟨?_, hevo.nextLe, hevo.mapKeep, hevo.listKeep, hevo.tupKeep⟩
  intro a b hb
  have hne : i ≠ a := by
    intro hh
    rw [hh] at hun
    rw [hun] at hb
    exact Option.noConfusion hb
  rw [show (registerSeen s1 i j).seen = (i, j) :: s1.seen from rfl]
  simp [nlook, hne]
  exact hevo.seenExt a b hb

/-- The combined invariant-preservation lemma for one munchify run:
every successful call of any interpreter function preserves the good
configuration, evolves the state monotonically, hands out only safe
converted identities, and leaves its argument registered. -/
theorem interpEvo (σ : Heap) (hcl : heapClosed σ = true) : ∀ g : Nat,
    (∀ s i r, munchCycF g s i = some r → GoodCfg σ s → (hget σ i).isSome = true →
      GoodCfg σ r.1 ∧ HeapEvo s r.1 ∧ PjOK σ r.2 ∧ nlook r.1.seen i = some r.2) ∧
    (∀ s i r, preMunchF g s i = some r → GoodCfg σ s → (hget σ i).isSome = true →
      GoodCfg σ r.1 ∧ HeapEvo s r.1 ∧ PjOK σ r.2) ∧
    (∀ s vs r, listFoldF g s vs = some r → GoodCfg σ s →
      (∀ v ∈ vs, (hget σ v).isSome = true) →
      GoodCfg σ r.1 ∧ HeapEvo s r.1 ∧ ∀ j ∈ r.2, PjOK σ j) ∧
    (∀ s es r, mapFoldF g s es = some r → GoodCfg σ s →
      (∀ p ∈ es, (hget σ p.2).isSome = true) →
      GoodCfg σ r.1 ∧ HeapEvo s r.1) ∧
    (∀ s pj i s2, postMunchF g s pj i = some s2 → GoodCfg σ s →
      (hget σ i).isSome = true → PjOK σ pj →
      GoodCfg σ s2 ∧ HeapEvo s s2) ∧
    (∀ s ps s2, postPairsF g s ps = some s2 → GoodCfg σ s →
      (∀ q ∈ ps, PjOK σ q.1 ∧ (hget σ q.2).isSome = true) →
      GoodCfg σ s2 ∧ HeapEvo s s2) := by
  intro g
  induction g with
  | zero =>
    refine ⟨?_, ?_, ?_, ?_, ?_, ?_⟩
    · intro s i r h
      simp [munchCycF] at h
    · intro s i r h
      simp [preMunchF] at h
    · intro s vs r h
      simp [listFoldF] at h
    · intro s es r h
      simp [mapFoldF] at h
    · intro s pj i s2 h
      simp [postMunchF] at h
    · intro s ps s2 h
      simp [postPairsF] at h
  | succ g ih =>
    obtain ⟨ihcyc, ihpre, ihlist, ihmap, ihpost, ihpairs⟩ := ih
    have hmain :
        ∀ s i r, munchCycF (g + 1) s i = some r → GoodCfg σ s → (hget σ i).isSome = true →
          GoodCfg σ r.1 ∧ HeapEvo s r.1 ∧ PjOK σ r.2 ∧ nlook r.1.seen i = some r.2 := by
      intro s i r h hc hi
      rw [munchCycF] at h
      cases hseen : nlook s.seen i with
      | some j =>
        rw [hseen] at h
        simp at h
        subst h
        exact ⟨hc, heapEvo_refl s, hc.seenTgt (i, j) (nlook_mem hseen), hseen⟩
      | none =>
        rw [hseen] at h
        simp only [] at h
        cases hpre0 : preMunchF g s i with
        | none => rw [hpre0] at h; simp at h
        | some r1 =>
          rw [hpre0] at h
          obtain ⟨s1, j⟩ := r1
          simp only [] at h
          cases hpost0 : postMunchF g (registerSeen s1 i j) j i with
          | none => rw [hpost0] at h; simp at h
          | some s2 =>
            rw [hpost0] at h
            simp at h
            subst h
            obtain ⟨hc1, hevo1, hpj⟩ := ihpre s i (s1, j) hpre0 hc hi
            have hc2 : GoodCfg σ (registerSeen s1 i j) := register_good hc1 hi hpj
            obtain ⟨hc3, hevo3⟩ := ihpost (registerSeen s1 i j) j i s2 hpost0 hc2 hi hpj
            refine ⟨hc3, ?_, hpj, ?_⟩
            · exact heapEvo_trans (register_evo_from j hseen hevo1) hevo3
            · exact hevo3.seenExt i j (nlook_register_self s1 i j)
    refine ⟨hmain, ?_, ?_, ?_, ?_, ?_⟩
    · -- preMunchF
      intro s i r h hc hi
      rcases Option.isSome_iff_exists.mp hi with ⟨nd, hnd⟩
      have hsheap : hget s.heap i = some nd := by rw [hc.srcPres i hi]; exact hnd
      rw [preMunchF] at h
      rw [hsheap] at h
      cases nd with
      | hmap b es =>
        simp at h
        subst h
        refine ⟨alloc_good _ hc (by intro js hh; exact absurd hh (by simp)), alloc_evo _ hc, ?_⟩
        exact pjok_next hc
      | hlist its =>
        simp at h
        subst h
        refine ⟨alloc_good _ hc (by intro js hh; exact absurd hh (by simp)), alloc_evo _ hc, ?_⟩
        exact pjok_next hc
      | htup its =>
        simp only [] at h
        cases hlf : listFoldF g s its with
        | none => rw [hlf] at h; simp at h
        | some r1 =>
          rw [hlf] at h
          obtain ⟨s1, js⟩ := r1
          simp at h
          subst h
          have hch : ∀ v ∈ its, (hget σ v).isSome = true := by
            intro v hv
            exact heapClosed_children hcl hnd v (by simpa [nodeChildren] using hv)
          obtain ⟨hc1, hevo1, hjs⟩ := ihlist s its (s1, js) hlf hc hch
          refine ⟨alloc_good _ hc1 ?_, heapEvo_trans hevo1 (alloc_evo _ hc1), pjok_next hc1⟩
          intro js2 hh
          injection hh with hh
          subst hh
          exact hjs
      | hatom v =>
        simp at h
        subst h
        exact ⟨hc, heapEvo_refl s, Or.inr ⟨v, hnd⟩⟩
    · -- listFoldF
      intro s vs r h hc hvs
      cases vs with
      | nil =>
        rw [listFoldF] at h
        simp at h
        subst h
        exact ⟨hc, heapEvo_refl s, by simp⟩
      | cons v rest =>
        rw [listFoldF] at h
        cases hm : munchCycF g s v with
        | none => rw [hm] at h; simp at h
        | some r1 =>
          rw [hm] at h
          obtain ⟨s1, j⟩ := r1
          simp only [] at h
          cases hl : listFoldF g s1 rest with
          | none => rw [hl] at h; simp at h
          | some r2 =>
            rw [hl] at h
            obtain ⟨s2, js⟩ := r2
            simp at h
            subst h
            obtain ⟨hc1, hevo1, hpj, _⟩ := ihcyc s v (s1, j) hm hc (hvs v (by simp))
            obtain ⟨hc2, hevo2, hjs⟩ :=
              ihlist s1 rest (s2, js) hl hc1 (fun v2 hv2 => hvs v2 (List.mem_cons_of_mem _ hv2))
            refine ⟨hc2, heapEvo_trans hevo1 hevo2, ?_⟩
            intro j2 hj2
            rcases List.mem_cons.mp hj2 with h0 | h0
            · subst h0; exact hpj
            · exact hjs j2 h0
    · -- mapFoldF
      intro s es r h hc hes
      cases es with
      | nil =>
        rw [mapFoldF] at h
        simp at h
        subst h
        exact ⟨hc, heapEvo_refl s⟩
      | cons p rest =>
        obtain ⟨k, v⟩ := p
        rw [mapFoldF] at h
        cases hm : munchCycF g s v with
        | none => rw [hm] at h; simp at h
        | some r1 =>
          rw [hm] at h
          obtain ⟨s1, j⟩ := r1
          simp only [] at h
          cases hl : mapFoldF g s1 rest with
          | none => rw [hl] at h; simp at h
          | some r2 =>
            rw [hl] at h
            obtain ⟨s2, prs⟩ := r2
            simp at h
            subst h
            obtain ⟨hc1, hevo1, _, _⟩ := ihcyc s v (s1, j) hm hc (hes (k, v) (by simp))
            obtain ⟨hc2, hevo2⟩ :=
              ihmap s1 rest (s2, prs) hl hc1 (fun q hq => hes q (List.mem_cons_of_mem _ hq))
            exact ⟨hc2, heapEvo_trans hevo1 hevo2⟩
    · -- postMunchF
      intro s pj i s2 h hc hi hpj
      rcases Option.isSome_iff_exists.mp hi with ⟨nd, hnd⟩
      have hsheap : hget s.heap i = some nd := by rw [hc.srcPres i hi]; exact hnd
      rw [postMunchF] at h
      rw [hsheap] at h
      cases nd with
      | hmap b es =>
        simp only [] at h
        cases hmf : mapFoldF g s es with
        | none => rw [hmf] at h; simp at h
        | some r1 =>
          rw [hmf] at h
          obtain ⟨s1, prs⟩ := r1
          simp only [] at h
          have hch : ∀ p ∈ es, (hget σ p.2).isSome = true := by
            intro p hp
            exact heapClosed_children hcl hnd p.2 (List.mem_map.mpr ⟨p, hp, rfl⟩)
          obtain ⟨hc1, hevo1⟩ := ihmap s es (s1, prs) hmf hc hch
          cases hjn : hget s1.heap pj with
          | none => rw [hjn] at h; simp at h
          | some nd2 =>
            rw [hjn] at h
            cases nd2 with
            | hmap bb cur =>
              simp at h
              subst h
              have hpjnone : hget σ pj = none := by
                rcases hpj with h0 | ⟨v0, h0⟩
                · exact h0
                · rw [hc1.srcPres pj (by simp [h0]), h0] at hjn
                  exact absurd hjn (by simp)
              refine ⟨setNode_good hc1 hpjnone (fun js hh => HNode.noConfusion hh), ?_⟩
              exact heapEvo_trans hevo1 (setNode_evo_map hjn)
            | hlist _ => simp at h
            | htup _ => simp at h
            | hatom _ => simp at h
      | hlist its =>
        simp only [] at h
        cases hlf : listFoldF g s its with
        | none => rw [hlf] at h; simp at h
        | some r1 =>
          rw [hlf] at h
          obtain ⟨s1, js⟩ := r1
          simp only [] at h
          have hch : ∀ v ∈ its, (hget σ v).isSome = true := by
            intro v hv
            exact heapClosed_children hcl hnd v (by simpa [nodeChildren] using hv)
          obtain ⟨hc1, hevo1, _⟩ := ihlist s its (s1, js) hlf hc hch
          cases hjn : hget s1.heap pj with
          | none => rw [hjn] at h; simp at h
          | some nd2 =>
            rw [hjn] at h
            cases nd2 with
            | hlist cur =>
              simp at h
              subst h
              have hpjnone : hget σ pj = none := by
                rcases hpj with h0 | ⟨v0, h0⟩
                · exact h0
                · rw [hc1.srcPres pj (by simp [h0]), h0] at hjn
                  exact absurd hjn (by simp)
              refine ⟨setNode_good hc1 hpjnone (fun js2 hh => HNode.noConfusion hh), ?_⟩
              exact heapEvo_trans hevo1 (setNode_evo_list hjn)
            | hmap _ _ => simp at h
            | htup _ => simp at h
            | hatom _ => simp at h
      | htup its =>
        simp only [] at h
        cases hjn : hget s.heap pj with
        | none => rw [hjn] at h; simp at h
        | some nd2 =>
          rw [hjn] at h
          cases nd2 with
          | htup pjs =>
            simp only [] at h
            have hpjnone : hget σ pj = none := by
              rcases hpj with h0 | ⟨v0, h0⟩
              · exact h0
              · rw [hc.srcPres pj (by simp [h0]), h0] at hjn
                exact absurd hjn (by simp)
            have hq : ∀ q ∈ pjs.zip its, PjOK σ q.1 ∧ (hget σ q.2).isSome = true := by
              intro q hqz
              obtain ⟨hq1, hq2⟩ := List.of_mem_zip hqz
              constructor
              · exact hc.tupTgt pj pjs hpjnone hjn q.1 hq1
              · exact heapClosed_children hcl hnd q.2 (by simpa [nodeChildren] using hq2)
            exact ihpairs s (pjs.zip its) s2 h hc hq
          | hmap _ _ => simp at h
          | hlist _ => simp at h
          | hatom _ => simp at h
      | hatom v =>
        simp at h
        subst h
        exact ⟨hc, heapEvo_refl s⟩
    · -- postPairsF
      intro s ps s2 h hc hps
      cases ps with
      | nil =>
        rw [postPairsF] at h
        simp at h
        subst h
        exact ⟨hc, heapEvo_refl s⟩
      | cons q rest =>
        obtain ⟨p, o⟩ := q
        rw [postPairsF] at h
        cases hp0 : postMunchF g s p o with
        | none => rw [hp0] at h; simp at h
        | some s1 =>
          rw [hp0] at h
          simp only [] at h
          obtain ⟨hq1, hq2⟩ := hps (p, o) (by simp)
          obtain ⟨hc1, hevo1⟩ := ihpost s p o s1 hp0 hc hq2 hq1
          obtain ⟨hc2, hevo2⟩ :=
            ihpairs s1 rest s2 h hc1 (fun q2 hq => hps q2 (List.mem_cons_of_mem _ hq))
          exact ⟨hc2, heapEvo_trans hevo1 hevo2⟩

/-- What the conversion of a mapping's entries produces: keys are kept
in order, the seen map only grows, and each entry's value is converted
to an identity that the final seen map records for it (so two entries
sharing one source value necessarily convert to one identity). -/
theorem mapFoldF_spec (σ : Heap) (hcl : heapClosed σ = true) :
    ∀ (es : List (String × Nat)) (g : Nat) (s s2 : CState) (prs : List (String × Nat)),
    mapFoldF g s es = some (s2, prs) → GoodCfg σ s →
    (∀ p ∈ es, (hget σ p.2).isSome = true) →
    prs.map Prod.fst = es.map Prod.fst ∧
    (∀ a b, nlook s.seen a = some b → nlook s2.seen a = some b) ∧
    (∀ n k v, es.get? n = some (k, v) →
      ∃ jv, prs.get? n = some (k, jv) ∧ nlook s2.seen v = some jv) := by
  intro es
  induction es with
  | nil =>
    intro g s s2 prs h hc hch
    cases g with
    | zero => simp [mapFoldF] at h
    | succ g =>
      rw [mapFoldF] at h
      simp at h
      obtain ⟨rfl, rfl⟩ := h
      refine ⟨rfl, fun a b hb => hb, ?_⟩
      intro n k v hn
      simp at hn
  | cons p rest ih =>
    intro g s s2 prs h hc hch
    obtain ⟨k, v⟩ := p
    cases g with
    | zero => simp [mapFoldF] at h
    | succ g =>
      rw [mapFoldF] at h
      cases hm : munchCycF g s v with
      | none => rw [hm] at h; simp at h
      | some r1 =>
        rw [hm] at h
        obtain ⟨s1, j⟩ := r1
        simp only [] at h
        cases hl : mapFoldF g s1 rest with
        | none => rw [hl] at h; simp at h
        | some r2 =>
          rw [hl] at h
          obtain ⟨s2x, prsx⟩ := r2
          simp at h
          obtain ⟨rfl, rfl⟩ := h
          obtain ⟨hc1, hevo1, _, hreg⟩ :=
            ((interpEvo σ hcl g).1) s v (s1, j) hm hc (hch (k, v) (by simp))
          obtain ⟨hkeys, hext2, hpoint⟩ :=
            ih g s1 s2x prsx hl hc1 (fun q hq => hch q (List.mem_cons_of_mem _ hq))
          refine ⟨?_, ?_, ?_⟩
          · simp [hkeys]
          · intro a b hb
            exact hext2 a b (hevo1.seenExt a b hb)
          · intro n k2 v2 hn
            cases n with
            | zero =>
              simp only [List.get?] at hn
              injection hn with hn
              injection hn with h1 h2
              subst h1
              subst h2
              exact ⟨j, by simp, hext2 v j hreg⟩
            | succ n =>
              simp at hn
              rcases hpoint n k2 v2 (by simpa using hn) with ⟨jv, hjv1, hjv2⟩
              exact ⟨jv, by simpa using hjv1, hjv2⟩

theorem alook_get? {α : Type} {es : List (String × α)} {k : String} {v : α}
    (h : alook es k = some v) : ∃ n, es.get? n = some (k, v) :=
  List.mem_iff_get?.mp (alook_mem h)

/-- Decomposition of a successful munchify run whose root is a
mapping: the result object is a mapping tagged as a Munch whose
contents are the dict-written converted pairs; each source entry's
value is converted to the identity the final seen map records for it,
and the root itself is recorded as the result object. -/
theorem munchifyRun_root_map (σ : Heap) (hcl : heapClosed σ = true)
    {r : Nat} {b : Bool} {es : List (String × Nat)}
    (hroot : hget σ r = some (HNode.hmap b es))
    {g : Nat} {s' : CState} {j : Nat}
    (h : munchifyRun σ r g = some (s', j)) :
    ∃ (s3 : CState) (prs cur : List (String × Nat)),
      prs.map Prod.fst = es.map Prod.fst ∧
      hget s'.heap j =
        some (.hmap true (prs.foldl (fun d kv => dictWrite d kv.1 kv.2) cur)) ∧
      (∀ n k v, es.get? n = some (k, v) →
        ∃ jv, prs.get? n = some (k, jv) ∧ nlook s3.seen v = some jv) ∧
      nlook s3.seen r = some j := by
  rw [munchifyRun] at h
  cases g with
  | zero => simp [munchCycF] at h
  | succ g =>
    rw [munchCycF] at h
    rw [show nlook (initState σ).seen r = none from rfl] at h
    simp only [] at h
    cases g with
    | zero =>
      rw [show preMunchF 0 (initState σ) r = none from rfl] at h
      simp at h
    | succ g2 =>
      have hs0heap : hget (initState σ).heap r = some (HNode.hmap b es) := hroot
      have hpre : preMunchF (g2 + 1) (initState σ) r =
          some (allocNode (initState σ) (.hmap true [])) := by
        rw [preMunchF, hs0heap]
      rw [hpre] at h
      simp only [] at h
      set s0 := initState σ with hs0
      set s1 := (allocNode s0 (.hmap true [])).1 with hs1
      set j0 := (allocNode s0 (.hmap true [])).2 with hj0
      set s2 := registerSeen s1 r j0 with hs2
      cases hpost : postMunchF (g2 + 1) s2 j0 r with
      | none => rw [hpost] at h; simp at h
      | some s2f =>
        rw [hpost] at h
        simp at h
        obtain ⟨rfl, rfl⟩ := h
        have hc0 : GoodCfg σ s0 := goodCfg_init σ
        have hc1 : GoodCfg σ s1 :=
          alloc_good _ hc0 (by intro js hh; exact HNode.noConfusion hh)
        have hisrc : (hget σ r).isSome = true := by simp [hroot]
        have hpj0 : PjOK σ j0 := pjok_next hc0
        have hc2 : GoodCfg σ s2 := register_good hc1 hisrc hpj0
        have hrlt : r < maxIdPlus σ := hget_lt_maxIdPlus hisrc
        have hs2heap : hget s2.heap r = some (HNode.hmap b es) := by
          have hne : s0.next ≠ r := by
            have : s0.next = maxIdPlus σ := rfl
            omega
          rw [show s2.heap = (s0.next, HNode.hmap true []) :: σ from rfl]
          rw [show hget ((s0.next, HNode.hmap true []) :: σ) r =
            if s0.next = r then some (HNode.hmap true []) else hget σ r from rfl]
          rw [if_neg hne]
          exact hroot
        rw [postMunchF, hs2heap] at hpost
        simp only [] at hpost
        cases hmf : mapFoldF g2 s2 es with
        | none => rw [hmf] at hpost; simp at hpost
        | some r3 =>
          rw [hmf] at hpost
          obtain ⟨s3, prs⟩ := r3
          simp only [] at hpost
          have hs2j0 : hget s2.heap j0 = some (HNode.hmap true []) := by
            rw [show s2.heap = (s0.next, HNode.hmap true []) :: σ from rfl]
            rw [show j0 = s0.next from rfl]
            rw [show hget ((s0.next, HNode.hmap true []) :: σ) s0.next =
              if s0.next = s0.next then some (HNode.hmap true []) else hget σ s0.next from rfl]
            rw [if_pos rfl]
          have hch : ∀ p ∈ es, (hget σ p.2).isSome = true := by
            intro p hp
            exact heapClosed_children hcl hroot p.2 (List.mem_map.mpr ⟨p, hp, rfl⟩)
          obtain ⟨hc3, hevo3⟩ := ((interpEvo σ hcl g2).2.2.2.1) s2 es (s3, prs) hmf hc2 hch
          obtain ⟨cur1, hcur1⟩ := hevo3.mapKeep j0 true [] hs2j0
          cases hjn : hget s3.heap j0 with
          | none => rw [hjn] at hpost; simp at hpost
          | some nd2 =>
            rw [hjn] at hpost
            cases nd2 with
            | hmap bb cur =>
              simp at hpost
              have hbb : bb = true := by
                rw [hcur1] at hjn
                injection hjn with hjn
                injection hjn with hjn1 _
                exact hjn1.symm
              subst hbb
              obtain ⟨hkeys, hext, hpoint⟩ := mapFoldF_spec σ hcl es g2 s2 s3 prs hmf hc2 hch
              refine ⟨s3, prs, cur, hkeys, ?_, hpoint, ?_⟩
              · rw [← hpost]
                rw [show (setNode s3 j0 (.hmap true
                    (prs.foldl (fun d kv => dictWrite d kv.1 kv.2) cur))).heap =
                  hset s3.heap j0 (.hmap true
                    (prs.foldl (fun d kv => dictWrite d kv.1 kv.2) cur)) from rfl]
                exact hget_hset_self _ hjn
              · exact hext r j0 (nlook_register_self s1 r j0)
            | hlist _ => simp at hpost
            | htup _ => simp at hpost
            | hatom _ => simp at hpost

/-- More fuel never changes a successful result. -/
theorem interpMono : ∀ g : Nat,
    (∀ s i r, munchCycF g s i = some r → munchCycF (g + 1) s i = some r) ∧
    (∀ s i r, preMunchF g s i = some r → preMunchF (g + 1) s i = some r) ∧
    (∀ s vs r, listFoldF g s vs = some r → listFoldF (g + 1) s vs = some r) ∧
    (∀ s es r, mapFoldF g s es = some r → mapFoldF (g + 1) s es = some r) ∧
    (∀ s pj i s2, postMunchF g s pj i = some s2 → postMunchF (g + 1) s pj i = some s2) ∧
    (∀ s ps s2, postPairsF g s ps = some s2 → postPairsF (g + 1) s ps = some s2) := by
  intro g
  induction g with
  | zero =>
    refine ⟨?_, ?_, ?_, ?_, ?_, ?_⟩
    · intro s i r h
      simp [munchCycF] at h
    · intro s i r h
      simp [preMunchF] at h
    · intro s vs r h
      simp [listFoldF] at h
    · intro s es r h
      simp [mapFoldF] at h
    · intro s pj i s2 h
      simp [postMunchF] at h
    · intro s ps s2 h
      simp [postPairsF] at h
  | succ g ih =>
    obtain ⟨ic, ip, il, im, ipo, ipa⟩ := ih
    refine ⟨?_, ?_, ?_, ?_, ?_, ?_⟩
    · intro s i r h
      rw [munchCycF] at h
      cases hseen : nlook s.seen i with
      | some j =>
        rw [hseen] at h
        simp at h
        subst h
        simp [munchCycF, hseen]
      | none =>
        rw [hseen] at h
        simp only [] at h
        cases hpre : preMunchF g s i with
        | none => rw [hpre] at h; simp at h
        | some r1 =>
          rw [hpre] at h
          obtain ⟨s1, j⟩ := r1
          simp only [] at h
          cases hpost : postMunchF g (registerSeen s1 i j) j i with
          | none => rw [hpost] at h; simp at h
          | some s2 =>
            rw [hpost] at h
            simp at h
            subst h
            simp [munchCycF, hseen, ip s i (s1, j) hpre, ipo _ _ _ _ hpost]
    · intro s i r h
      rw [preMunchF] at h
      cases hh : hget s.heap i with
      | none => rw [hh] at h; simp at h
      | some nd =>
        rw [hh] at h
        cases nd with
        | hmap b es =>
          simp at h
          subst h
          simp [preMunchF, hh]
        | hlist its =>
          simp at h
          subst h
          simp [preMunchF, hh]
        | hatom v =>
          simp at h
          subst h
          simp [preMunchF, hh]
        | htup its =>
          simp only [] at h
          cases hlf : listFoldF g s its with
          | none => rw [hlf] at h; simp at h
          | some r1 =>
            rw [hlf] at h
            obtain ⟨s1, js⟩ := r1
            simp at h
            subst h
            simp [preMunchF, hh, il _ _ _ hlf]
    · intro s vs r h
      cases vs with
      | nil =>
        rw [listFoldF] at h
        simp at h
        subst h
        simp [listFoldF]
      | cons v rest =>
        rw [listFoldF] at h
        cases hm : munchCycF g s v with
        | none => rw [hm] at h; simp at h
        | some r1 =>
          rw [hm] at h
          obtain ⟨s1, j⟩ := r1
          simp only [] at h
          cases hl : listFoldF g s1 rest with
          | none => rw [hl] at h; simp at h
          | some r2 =>
            rw [hl] at h
            obtain ⟨s2, js⟩ := r2
            simp at h
            subst h
            simp [listFoldF, ic _ _ _ hm, il _ _ _ hl]
    · intro s es r h
      cases es with
      | nil =>
        rw [mapFoldF] at h
        simp at h
        subst h
        simp [mapFoldF]
      | cons p rest =>
        obtain ⟨k, v⟩ := p
        rw [mapFoldF] at h
        cases hm : munchCycF g s v with
        | none => rw [hm] at h; simp at h
        | some r1 =>
          rw [hm] at h
          obtain ⟨s1, j⟩ := r1
          simp only [] at h
          cases hl : mapFoldF g s1 rest with
          | none => rw [hl] at h; simp at h
          | some r2 =>
            rw [hl] at h
            obtain ⟨s2, prs⟩ := r2
            simp at h
            subst h
            simp [mapFoldF, ic _ _ _ hm, im _ _ _ hl]
    · intro s pj i s2 h
      rw [postMunchF] at h
      cases hh : hget s.heap i with
      | none => rw [hh] at h; simp at h
      | some nd =>
        rw [hh] at h
        cases nd with
        | hmap b es =>
          simp only [] at h
          cases hmf : mapFoldF g s es with
          | none => rw [hmf] at h; simp at h
          | some r1 =>
            rw [hmf] at h
            obtain ⟨s1, prs⟩ := r1
            simp only [] at h
            cases hjn : hget s1.heap pj with
            | none => rw [hjn] at h; simp at h
            | some nd2 =>
              rw [hjn] at h
              cases nd2 with
              | hmap bb cur =>
                simp at h
                subst h
                simp [postMunchF, hh, im _ _ _ hmf, hjn]
              | hlist _ => simp at h
              | htup _ => simp at h
              | hatom _ => simp at h
        | hlist its =>
          simp only [] at h
          cases hlf : listFoldF g s its with
          | none => rw [hlf] at h; simp at h
          | some r1 =>
            rw [hlf] at h
            obtain ⟨s1, js⟩ := r1
            simp only [] at h
            cases hjn : hget s1.heap pj with
            | none => rw [hjn] at h; simp at h
            | some nd2 =>
              rw [hjn] at h
              cases nd2 with
              | hlist cur =>
                simp at h
                subst h
                simp [postMunchF, hh, il _ _ _ hlf, hjn]
              | hmap _ _ => simp at h
              | htup _ => simp at h
              | hatom _ => simp at h
        | htup its =>
          simp only [] at h
          cases hjn : hget s.heap pj with
          | none => rw [hjn] at h; simp at h
          | some nd2 =>
            rw [hjn] at h
            cases nd2 with
            | htup pjs =>
              simp only [] at h
              have h2 := ipa _ _ _ h
              simp [postMunchF, hh, hjn, h2]
            | hmap _ _ => simp at h
            | hlist _ => simp at h
            | hatom _ => simp at h
        | hatom v =>
          simp at h
          subst h
          simp [postMunchF, hh]
    · intro s ps s2 h
      cases ps with
      | nil =>
        rw [postPairsF] at h
        simp at h
        subst h
        simp [postPairsF]
      | cons q rest =>
        obtain ⟨p, o⟩ := q
        rw [postPairsF] at h
        cases hp0 : postMunchF g s p o with
        | none => rw [hp0] at h; simp at h
        | some s1 =>
          rw [hp0] at h
          simp only [] at h
          have h2 := ipa _ _ _ h
          simp [postPairsF, ipo _ _ _ _ hp0, h2]

theorem munchCycF_mono_le {g g' : Nat} (hle : g ≤ g') {s : CState} {i : Nat}
    {r : CState × Nat} (h : munchCycF g s i = some r) : munchCycF g' s i = some r := by
  induction hle with
  | refl => exact h
  | step _ ih => exact (interpMono _).1 _ _ _ ih

theorem preMunchF_mono_le {g g' : Nat} (hle : g ≤ g') {s : CState} {i : Nat}
    {r : CState × Nat} (h : preMunchF g s i = some r) : preMunchF g' s i = some r := by
  induction hle with
  | refl => exact h
  | step _ ih => exact (interpMono _).2.1 _ _ _ ih

theorem listFoldF_mono_le {g g' : Nat} (hle : g ≤ g') {s : CState} {vs : List Nat}
    {r : CState × List Nat} (h : listFoldF g s vs = some r) : listFoldF g' s vs = some r := by
  induction hle with
  | refl => exact h
  | step _ ih => exact (interpMono _).2.2.1 _ _ _ ih

theorem mapFoldF_mono_le {g g' : Nat} (hle : g ≤ g') {s : CState} {es : List (String × Nat)}
    {r : CState × List (String × Nat)} (h : mapFoldF g s es = some r) :
    mapFoldF g' s es = some r := by
  induction hle with
  | refl => exact h
  | step _ ih => exact (interpMono _).2.2.2.1 _ _ _ ih

theorem postMunchF_mono_le {g g' : Nat} (hle : g ≤ g') {s : CState} {pj i : Nat}
    {s2 : CState} (h : postMunchF g s pj i = some s2) : postMunchF g' s pj i = some s2 := by
  induction hle with
  | refl => exact h
  | step _ ih => exact (interpMono _).2.2.2.2.1 _ _ _ _ ih

theorem postPairsF_mono_le {g g' : Nat} (hle : g ≤ g') {s : CState} {ps : List (Nat × Nat)}
    {s2 : CState} (h : postPairsF g s ps = some s2) : postPairsF g' s ps = some s2 := by
  induction hle with
  | refl => exact h
  | step _ ih => exact (interpMono _).2.2.2.2.2 _ _ _ ih

theorem pairMatch_mono {σ h1 h2 : Heap}
    (hm : ∀ a b0 cur0, hget h1 a = some (.hmap b0 cur0) →
      ∃ cur1, hget h2 a = some (.hmap b0 cur1))
    (hl : ∀ a cur0, hget h1 a = some (.hlist cur0) → ∃ cur1, hget h2 a = some (.hlist cur1))
    (ht : ∀ a js, hget h1 a = some (.htup js) → hget h2 a = some (.htup js)) :
    ∀ {i j : Nat}, PairMatch σ h1 i j → PairMatch σ h2 i j := by
  intro i j hpm
  induction hpm with
  | atom i v hv => exact .atom i v hv
  | map i j b es bb cur h1a h2a hnone =>
    rcases hm j bb cur h2a with ⟨cur1, hc⟩
    exact .map i j b es bb cur1 h1a hc hnone
  | list i j its cur h1a h2a hnone =>
    rcases hl j cur h2a with ⟨cur1, hc⟩
    exact .list i j its cur1 h1a hc hnone
  | tup i j its js hsi hsj hnone hrec ih =>
    exact .tup i j its js hsi (ht j js hsj) hnone ih

theorem pairMatch_evo {σ : Heap} {s s2 : CState} (hevo : HeapEvo s s2) {i j : Nat}
    (h : PairMatch σ s.heap i j) : PairMatch σ s2.heap i j :=
  pairMatch_mono hevo.mapKeep hevo.listKeep hevo.tupKeep h

theorem pairMatch_pjok {σ h : Heap} {i j : Nat} (hpm : PairMatch σ h i j) : PjOK σ j := by
  cases hpm with
  | atom i v hv => exact Or.inr ⟨v, hv⟩
  | map i j b es bb cur h1a h2a hnone => exact Or.inl hnone
  | list i j its cur h1a h2a hnone => exact Or.inl hnone
  | tup i j its js hsi hsj hnone hrec => exact Or.inl hnone

theorem src_next_none {σ : Heap} {s : CState} (hc : GoodCfg σ s) : hget σ s.next = none := by
  cases hh : hget σ s.next with
  | none => rfl
  | some nd =>
    have := hc.srcLt s.next (by simp [hh])
    omega

theorem hget_alloc_self (s : CState) (nd : HNode) :
    hget (allocNode s nd).1.heap s.next = some nd := by
  rw [show (allocNode s nd).1.heap = (s.next, nd) :: s.heap from rfl]
  rw [show hget ((s.next, nd) :: s.heap) s.next =
    if s.next = s.next then some nd else hget s.heap s.next from rfl]
  rw [if_pos rfl]

/-- Every successful conversion produces a shape-matched counterpart,
and the seen map stays shape-matched throughout. -/
theorem interpPM (σ : Heap) (hcl : heapClosed σ = true) : ∀ g : Nat,
    (∀ s i r, munchCycF g s i = some r → GoodCfg σ s → SeenPM σ s →
      (hget σ i).isSome = true → SeenPM σ r.1 ∧ PairMatch σ r.1.heap i r.2) ∧
    (∀ s i r, preMunchF g s i = some r → GoodCfg σ s → SeenPM σ s →
      (hget σ i).isSome = true → SeenPM σ r.1 ∧ PairMatch σ r.1.heap i r.2) ∧
    (∀ s vs r, listFoldF g s vs = some r → GoodCfg σ s → SeenPM σ s →
      (∀ v ∈ vs, (hget σ v).isSome = true) →
      SeenPM σ r.1 ∧ ∀ n v j2, vs.get? n = some v → r.2.get? n = some j2 →
        PairMatch σ r.1.heap v j2) ∧
    (∀ s es r, mapFoldF g s es = some r → GoodCfg σ s → SeenPM σ s →
      (∀ p ∈ es, (hget σ p.2).isSome = true) → SeenPM σ r.1) ∧
    (∀ s pj i s2, postMunchF g s pj i = some s2 → GoodCfg σ s → SeenPM σ s →
      (hget σ i).isSome = true → PjOK σ pj → SeenPM σ s2) ∧
    (∀ s ps s2, postPairsF g s ps = some s2 → GoodCfg σ s → SeenPM σ s →
      (∀ q ∈ ps, PjOK σ q.1 ∧ (hget σ q.2).isSome = true) → SeenPM σ s2) := by
  intro g
  induction g with
  | zero =>
    refine ⟨?_, ?_, ?_, ?_, ?_, ?_⟩
    · intro s i r h
      simp [munchCycF] at h
    · intro s i r h
      simp [preMunchF] at h
    · intro s vs r h
      simp [listFoldF] at h
    · intro s es r h
      simp [mapFoldF] at h
    · intro s pj i s2 h
      simp [postMunchF] at h
    · intro s ps s2 h
      simp [postPairsF] at h
  | succ g ih =>
    obtain ⟨ihcyc, ihpre, ihlist, ihmap, ihpost, ihpairs⟩ := ih
    obtain ⟨evcyc, evpre, evlist, evmap, evpost, evpairs⟩ := interpEvo σ hcl g
    refine ⟨?_, ?_, ?_, ?_, ?_, ?_⟩
    · -- munchCycF
      intro s i r h hc hsp hi
      rw [munchCycF] at h
      cases hseen : nlook s.seen i with
      | some j =>
        rw [hseen] at h
        simp at h
        subst h
        exact ⟨hsp, hsp i j hseen⟩
      | none =>
        rw [hseen] at h
        simp only [] at h
        cases hpre0 : preMunchF g s i with
        | none => rw [hpre0] at h; simp at h
        | some r1 =>
          rw [hpre0] at h
          obtain ⟨s1, j⟩ := r1
          simp only [] at h
          cases hpost0 : postMunchF g (registerSeen s1 i j) j i with
          | none => rw [hpost0] at h; simp at h
          | some s2 =>
            rw [hpost0] at h
            simp at h
            subst h
            obtain ⟨hc1, hevo1, hpj⟩ := evpre s i (s1, j) hpre0 hc hi
            obtain ⟨hsp1, hpm1⟩ := ihpre s i (s1, j) hpre0 hc hsp hi
            have hc2 : GoodCfg σ (registerSeen s1 i j) := register_good hc1 hi hpj
            have hsp2 : SeenPM σ (registerSeen s1 i j) := by
              intro a b hb
              rw [show (registerSeen s1 i j).seen = (i, j) :: s1.seen from rfl] at hb
              rw [show (registerSeen s1 i j).heap = s1.heap from rfl]
              by_cases hia : i = a
              · subst hia
                rw [show nlook ((i, j) :: s1.seen) i = some j from by simp [nlook]] at hb
                injection hb with hb
                subst hb
                exact hpm1
              · rw [show nlook ((i, j) :: s1.seen) a = nlook s1.seen a from by
                  simp [nlook, hia]] at hb
                exact hsp1 a b hb
            obtain ⟨hc3, hevo3⟩ := evpost (registerSeen s1 i j) j i s2 hpost0 hc2 hi hpj
            have hsp3 : SeenPM σ s2 := ihpost (registerSeen s1 i j) j i s2 hpost0 hc2 hsp2 hi hpj
            refine ⟨hsp3, ?_⟩
            have : PairMatch σ (registerSeen s1 i j).heap i j := hpm1
            exact pairMatch_evo hevo3 this
    · -- preMunchF
      intro s i r h hc hsp hi
      rcases Option.isSome_iff_exists.mp hi with ⟨nd, hnd⟩
      have hsheap : hget s.heap i = some nd := by rw [hc.srcPres i hi]; exact hnd
      rw [preMunchF] at h
      rw [hsheap] at h
      cases nd with
      | hmap b es =>
        simp at h
        subst h
        refine ⟨?_, ?_⟩
        · intro a b2 hb
          exact pairMatch_evo (alloc_evo _ hc) (hsp a b2 hb)
        · exact .map i s.next b es true [] hnd (hget_alloc_self s _) (src_next_none hc)
      | hlist its =>
        simp at h
        subst h
        refine ⟨?_, ?_⟩
        · intro a b2 hb
          exact pairMatch_evo (alloc_evo _ hc) (hsp a b2 hb)
        · exact .list i s.next its [] hnd (hget_alloc_self s _) (src_next_none hc)
      | hatom v =>
        simp at h
        subst h
        exact ⟨hsp, .atom i v hnd⟩
      | htup its =>
        simp only [] at h
        cases hlf : listFoldF g s its with
        | none => rw [hlf] at h; simp at h
        | some r1 =>
          rw [hlf] at h
          obtain ⟨s1, js⟩ := r1
          simp at h
          subst h
          have hch : ∀ v ∈ its, (hget σ v).isSome = true := by
            intro v hv
            exact heapClosed_children hcl hnd v (by simpa [nodeChildren] using hv)
          obtain ⟨hc1, hevo1, hjs⟩ := evlist s its (s1, js) hlf hc hch
          obtain ⟨hsp1, hpoint⟩ := ihlist s its (s1, js) hlf hc hsp hch
          refine ⟨?_, ?_⟩
          · intro a b2 hb
            exact pairMatch_evo (alloc_evo _ hc1) (hsp1 a b2 hb)
          · refine .tup i s1.next its js hnd (hget_alloc_self s1 _) (src_next_none hc1) ?_
            intro n o p ho hp
            exact pairMatch_evo (alloc_evo _ hc1) (hpoint n o p ho hp)
    · -- listFoldF
      intro s vs r h hc hsp hvs
      cases vs with
      | nil =>
        rw [listFoldF] at h
        simp at h
        subst h
        refine ⟨hsp, ?_⟩
        intro n v j2 hv
        simp at hv
      | cons v rest =>
        rw [listFoldF] at h
        cases hm : munchCycF g s v with
        | none => rw [hm] at h; simp at h
        | some r1 =>
          rw [hm] at h
          obtain ⟨s1, j⟩ := r1
          simp only [] at h
          cases hl : listFoldF g s1 rest with
          | none => rw [hl] at h; simp at h
          | some r2 =>
            rw [hl] at h
            obtain ⟨s2, js⟩ := r2
            simp at h
            subst h
            obtain ⟨hc1, hevo1, hpj, _⟩ := evcyc s v (s1, j) hm hc (hvs v (by simp))
            obtain ⟨hsp1, hpm1⟩ := ihcyc s v (s1, j) hm hc hsp (hvs v (by simp))
            obtain ⟨hc2, hevo2, _⟩ :=
              evlist s1 rest (s2, js) hl hc1 (fun v2 hv2 => hvs v2 (List.mem_cons_of_mem _ hv2))
            obtain ⟨hsp2, hpoint⟩ :=
              ihlist s1 rest (s2, js) hl hc1 hsp1
                (fun v2 hv2 => hvs v2 (List.mem_cons_of_mem _ hv2))
            refine ⟨hsp2, ?_⟩
            intro n v2 j2 hv2 hj2
            cases n with
            | zero =>
              simp only [List.get?] at hv2 hj2
              injection hv2 with hv2
              injection hj2 with hj2
              subst hv2
              subst hj2
              exact pairMatch_evo hevo2 hpm1
            | succ n =>
              simp only [List.get?] at hv2 hj2
              exact hpoint n v2 j2 hv2 hj2
    · -- mapFoldF
      intro s es r h hc hsp hes
      cases es with
      | nil =>
        rw [mapFoldF] at h
        simp at h
        subst h
        exact hsp
      | cons p rest =>
        obtain ⟨k, v⟩ := p
        rw [mapFoldF] at h
        cases hm : munchCycF g s v with
        | none => rw [hm] at h; simp at h
        | some r1 =>
          rw [hm] at h
          obtain ⟨s1, j⟩ := r1
          simp only [] at h
          cases hl : mapFoldF g s1 rest with
          | none => rw [hl] at h; simp at h
          | some r2 =>
            rw [hl] at h
            obtain ⟨s2, prs⟩ := r2
            simp at h
            subst h
            obtain ⟨hc1, _, _, _⟩ := evcyc s v (s1, j) hm hc (hes (k, v) (by simp))
            obtain ⟨hsp1, _⟩ := ihcyc s v (s1, j) hm hc hsp (hes (k, v) (by simp))
            exact ihmap s1 rest (s2, prs) hl hc1 hsp1
              (fun q hq => hes q (List.mem_cons_of_mem _ hq))
    · -- postMunchF
      intro s pj i s2 h hc hsp hi hpj
      rcases Option.isSome_iff_exists.mp hi with ⟨nd, hnd⟩
      have hsheap : hget s.heap i = some nd := by rw [hc.srcPres i hi]; exact hnd
      rw [postMunchF] at h
      rw [hsheap] at h
      cases nd with
      | hmap b es =>
        simp only [] at h
        cases hmf : mapFoldF g s es with
        | none => rw [hmf] at h; simp at h
        | some r1 =>
          rw [hmf] at h
          obtain ⟨s1, prs⟩ := r1
          simp only [] at h
          cases hjn : hget s1.heap pj with
          | none => rw [hjn] at h; simp at h
          | some nd2 =>
            rw [hjn] at h
            cases nd2 with
            | hmap bb cur =>
              simp at h
              subst h
              have hch : ∀ p ∈ es, (hget σ p.2).isSome = true := by
                intro p hp
                exact heapClosed_children hcl hnd p.2 (List.mem_map.mpr ⟨p, hp, rfl⟩)
              obtain ⟨hc1, _⟩ := evmap s es (s1, prs) hmf hc hch
              have hsp1 := ihmap s es (s1, prs) hmf hc hsp hch
              intro a b2 hb
              rw [show (setNode s1 pj (HNode.hmap bb
                (prs.foldl (fun d kv => dictWrite d kv.1 kv.2) cur))).seen = s1.seen from rfl] at hb
              exact pairMatch_evo (setNode_evo_map hjn) (hsp1 a b2 hb)
            | hlist _ => simp at h
            | htup _ => simp at h
            | hatom _ => simp at h
      | hlist its =>
        simp only [] at h
        cases hlf : listFoldF g s its with
        | none => rw [hlf] at h; simp at h
        | some r1 =>
          rw [hlf] at h
          obtain ⟨s1, js⟩ := r1
          simp only [] at h
          cases hjn : hget s1.heap pj with
          | none => rw [hjn] at h; simp at h
          | some nd2 =>
            rw [hjn] at h
            cases nd2 with
            | hlist cur =>
              simp at h
              subst h
              have hch : ∀ v ∈ its, (hget σ v).isSome = true := by
                intro v hv
                exact heapClosed_children hcl hnd v (by simpa [nodeChildren] using hv)
              obtain ⟨hc1, _, _⟩ := evlist s its (s1, js) hlf hc hch
              obtain ⟨hsp1, _⟩ := ihlist s its (s1, js) hlf hc hsp hch
              intro a b2 hb
              rw [show (setNode s1 pj (HNode.hlist (cur ++ js))).seen = s1.seen from rfl] at hb
              exact pairMatch_evo (setNode_evo_list hjn) (hsp1 a b2 hb)
            | hmap _ _ => simp at h
            | htup _ => simp at h
            | hatom _ => simp at h
      | htup its =>
        simp only [] at h
        cases hjn : hget s.heap pj with
        | none => rw [hjn] at h; simp at h
        | some nd2 =>
          rw [hjn] at h
          cases nd2 with
          | htup pjs =>
            simp only [] at h
            have hpjnone : hget σ pj = none := by
              rcases hpj with h0 | ⟨v0, h0⟩
              · exact h0
              · rw [hc.srcPres pj (by simp [h0]), h0] at hjn
                exact absurd hjn (by simp)
            have hq : ∀ q ∈ pjs.zip its, PjOK σ q.1 ∧ (hget σ q.2).isSome = true := by
              intro q hqz
              obtain ⟨hq1, hq2⟩ := List.of_mem_zip hqz
              exact ⟨hc.tupTgt pj pjs hpjnone hjn q.1 hq1,
                heapClosed_children hcl hnd q.2 (by simpa [nodeChildren] using hq2)⟩
            exact ihpairs s (pjs.zip its) s2 h hc hsp hq
          | hmap _ _ => simp at h
          | hlist _ => simp at h
          | hatom _ => simp at h
      | hatom v =>
        simp at h
        subst h
        exact hsp
    · -- postPairsF
      intro s ps s2 h hc hsp hps
      cases ps with
      | nil =>
        rw [postPairsF] at h
        simp at h
        subst h
        exact hsp
      | cons q rest =>
        obtain ⟨p, o⟩ := q
        rw [postPairsF] at h
        cases hp0 : postMunchF g s p o with
        | none => rw [hp0] at h; simp at h
        | some s1 =>
          rw [hp0] at h
          simp only [] at h
          obtain ⟨hq1, hq2⟩ := hps (p, o) (by simp)
          obtain ⟨hc1, _⟩ := evpost s p o s1 hp0 hc hq2 hq1
          have hsp1 := ihpost s p o s1 hp0 hc hsp hq2 hq1
          exact ihpairs s1 rest s2 h hc1 hsp1 (fun q2 hq => hps q2 (List.mem_cons_of_mem _ hq))

theorem filter_length_le {α : Type} {p q : α → Bool} : ∀ l : List α,
    (∀ a ∈ l, p a = true → q a = true) →
    (l.filter p).length ≤ (l.filter q).length := by
  intro l
  induction l with
  | nil => intro _; exact Nat.le_refl _
  | cons a rest ih =>
    intro h
    have hrest := ih (fun b hb => h b (List.mem_cons_of_mem _ hb))
    by_cases hp : p a = true
    · have hq := h a (by simp) hp
      simp [List.filter_cons, hp, hq]
      exact hrest
    · have hp2 : p a = false := by
        cases hh : p a
        · rfl
        · exact absurd hh hp
      cases hq : q a with
      | true =>
        simp [List.filter_cons, hp2, hq]
        exact Nat.le_succ_of_le hrest
      | false =>
        simp [List.filter_cons, hp2, hq]
        exact hrest

theorem filter_length_lt {α : Type} {p q : α → Bool} : ∀ l : List α,
    (∀ a ∈ l, p a = true → q a = true) →
    ∀ x ∈ l, p x = false → q x = true →
    (l.filter p).length < (l.filter q).length := by
  intro l
  induction l with
  | nil => intro _ x hx; simp at hx
  | cons a rest ih =>
    intro h x hx hpx hqx
    have hmono := filter_length_le rest (fun b hb => h b (List.mem_cons_of_mem _ hb))
    rcases List.mem_cons.mp hx with h0 | h0
    · subst h0
      simp [List.filter_cons, hpx, hqx]
      exact Nat.lt_succ_of_le hmono
    · have hlt := ih (fun b hb => h b (List.mem_cons_of_mem _ hb)) x h0 hpx hqx
      by_cases hp : p a = true
      · have hq := h a (by simp) hp
        simp [List.filter_cons, hp, hq]
        exact hlt
      · have hp2 : p a = false := by
          cases hh : p a
          · rfl
          · exact absurd hh hp
        cases hq : q a with
        | true =>
          simp [List.filter_cons, hp2, hq]
          exact Nat.lt_succ_of_lt hlt
        | false =>
          simp [List.filter_cons, hp2, hq]
          exact hlt

theorem unseen_le_of_ext {σ : Heap} {s s2 : CState}
    (hext : ∀ a b, nlook s.seen a = some b → nlook s2.seen a = some b) :
    unseenCount σ s2 ≤ unseenCount σ s := by
  apply filter_length_le
  intro a _ hp
  cases hl : nlook s.seen a with
  | none => simp
  | some b =>
    rw [hext a b hl] at hp
    simp at hp

theorem unseen_register_le {σ : Heap} (s : CState) (i j : Nat) :
    unseenCount σ (registerSeen s i j) ≤ unseenCount σ s := by
  apply filter_length_le
  intro a _ hp
  rw [show (registerSeen s i j).seen = (i, j) :: s.seen from rfl] at hp
  by_cases hia : i = a
  · rw [show nlook ((i, j) :: s.seen) a = some j from by simp [nlook, hia]] at hp
    simp at hp
  · rw [show nlook ((i, j) :: s.seen) a = nlook s.seen a from by simp [nlook, hia]] at hp
    exact hp

theorem unseen_lt_of_newly {σ : Heap} {s s2 : CState} {i : Nat}
    (hisrc : (hget σ i).isSome = true)
    (hext : ∀ a b, nlook s.seen a = some b → nlook s2.seen a = some b)
    (hun : nlook s.seen i = none) (hseen2 : (nlook s2.seen i).isSome = true) :
    unseenCount σ s2 < unseenCount σ s := by
  apply filter_length_lt
  · intro a _ hp
    cases hl : nlook s.seen a with
    | none => simp
    | some b =>
      rw [hext a b hl] at hp
      simp at hp
  · rcases Option.isSome_iff_exists.mp hisrc with ⟨nd, hnd⟩
    exact List.mem_map.mpr ⟨(i, nd), hget_mem hnd, rfl⟩
  · rcases Option.isSome_iff_exists.mp hseen2 with ⟨b, hb⟩
    simp [hb]
  · simp [hun]

theorem unseen_register_lt {σ : Heap} {s : CState} {i : Nat} (j : Nat)
    (hisrc : (hget σ i).isSome = true) (hun : nlook s.seen i = none) :
    unseenCount σ (registerSeen s i j) < unseenCount σ s := by
  apply unseen_lt_of_newly hisrc ?_ hun ?_
  · intro a b hb
    have hne : i ≠ a := by
      intro hh
      rw [hh] at hun
      rw [hun] at hb
      exact Option.noConfusion hb
    rw [show (registerSeen s i j).seen = (i, j) :: s.seen from rfl]
    simp [nlook, hne]
    exact hb
  · rw [show (registerSeen s i j).seen = (i, j) :: s.seen from rfl]
    simp [nlook]

theorem seenPM_register {σ : Heap} {s : CState} {i j : Nat} (hsp : SeenPM σ s)
    (hpm : PairMatch σ s.heap i j) : SeenPM σ (registerSeen s i j) := by
  intro a b hb
  rw [show (registerSeen s i j).seen = (i, j) :: s.seen from rfl] at hb
  rw [show (registerSeen s i j).heap = s.heap from rfl]
  by_cases hia : i = a
  · subst hia
    rw [show nlook ((i, j) :: s.seen) i = some j from by simp [nlook]] at hb
    injection hb with hb
    subst hb
    exact hpm
  · rw [show nlook ((i, j) :: s.seen) a = nlook s.seen a from by simp [nlook, hia]] at hb
    exact hsp a b hb

theorem mem_zip_get? {α β : Type} : ∀ {l1 : List α} {l2 : List β} {q : α × β},
    q ∈ l1.zip l2 → ∃ n, l1.get? n = some q.1 ∧ l2.get? n = some q.2 := by
  intro l1
  induction l1 with
  | nil => intro l2 q h; simp at h
  | cons a r1 ih =>
    intro l2 q h
    cases l2 with
    | nil => simp at h
    | cons b r2 =>
      rw [List.zip_cons_cons] at h
      rcases List.mem_cons.mp h with h0 | h0
      · subst h0
        exact ⟨0, by simp⟩
      · rcases ih h0 with ⟨n, h1, h2⟩
        exact ⟨n + 1, by simpa using h1, by simpa using h2⟩

theorem interpSuffStep (σ : Heap) (hcl : heapClosed σ = true)
    (rank : Nat → Nat)
    (hrank : ∀ i its, hget σ i = some (.htup its) → ∀ j, j ∈ its → rank j < rank i)
    (M : Nat) (hM : ∀ i, (hget σ i).isSome = true → rank i ≤ M) :
    ∀ n : Nat, (∀ m, m < n → SuffAt σ rank M m) → SuffAt σ rank M n := by
  intro n ihn
  have hpost : ∀ s pj i, GoodCfg σ s → SeenPM σ s → (hget σ i).isSome = true →
      PairMatch σ s.heap i pj →
      (unseenCount σ s + 1) * (M + 1) + rank i ≤ n →
      ∃ g s2, postMunchF g s pj i = some s2 := by
    intro s pj i hc hsp hi hpm hb
    have hn1 : 1 ≤ n := by
      have h11 : 1 * 1 ≤ (unseenCount σ s + 1) * (M + 1) :=
        Nat.mul_le_mul (Nat.succ_le_succ (Nat.zero_le _)) (Nat.succ_le_succ (Nat.zero_le _))
      omega
    obtain ⟨-, -, hlistN, hmapN, -, hpairsN⟩ := ihn (n - 1) (by omega)
    rcases Option.isSome_iff_exists.mp hi with ⟨nd, hnd⟩
    have hsheap : hget s.heap i = some nd := by rw [hc.srcPres i hi]; exact hnd
    have hmul : unseenCount σ s * (M + 1) + (M + 1) = (unseenCount σ s + 1) * (M + 1) := by
      ring
    cases nd with
    | hatom v => exact ⟨1, s, by simp [postMunchF, hsheap]⟩
    | hmap b es =>
      have hsrces : ∀ p ∈ es, (hget σ p.2).isSome = true := by
        intro p hp
        exact heapClosed_children hcl hnd p.2 (List.mem_map.mpr ⟨p, hp, rfl⟩)
      have hbes : ∀ p ∈ es, unseenCount σ s * (M + 1) + rank p.2 ≤ n - 1 := by
        intro p hp
        have hrp : rank p.2 ≤ M := hM p.2 (hsrces p hp)
        omega
      obtain ⟨g1, ⟨s1, prs⟩, hmf⟩ := hmapN s es hc hsp hsrces hbes
      have hpjmap : ∃ bb cur, hget s.heap pj = some (.hmap bb cur) := by
        cases hpm with
        | atom _ v hv => rw [hnd] at hv; simp at hv
        | map _ _ b2 es2 bb cur h1a h2a hnone => exact ⟨bb, cur, h2a⟩
        | list _ _ its cur h1a h2a hnone => rw [hnd] at h1a; simp at h1a
        | tup _ _ its js h1a h2a hnone hrec => rw [hnd] at h1a; simp at h1a
      obtain ⟨bb, cur, hpjs⟩ := hpjmap
      obtain ⟨-, hevo1⟩ := (interpEvo σ hcl g1).2.2.2.1 s es (s1, prs) hmf hc hsrces
      obtain ⟨cur1, hpjs1⟩ := hevo1.mapKeep pj bb cur hpjs
      refine ⟨g1 + 1,
        setNode s1 pj (.hmap bb (prs.foldl (fun d kv => dictWrite d kv.1 kv.2) cur1)), ?_⟩
      simp [postMunchF, hsheap, hmf, hpjs1]
    | hlist its =>
      have hsrci : ∀ v ∈ its, (hget σ v).isSome = true := by
        intro v hv
        exact heapClosed_children hcl hnd v hv
      have hbits : ∀ v ∈ its, unseenCount σ s * (M + 1) + rank v ≤ n - 1 := by
        intro v hv
        have hrp : rank v ≤ M := hM v (hsrci v hv)
        omega
      obtain ⟨g1, ⟨s1, js⟩, hlf⟩ := hlistN s its hc hsp hsrci hbits
      have hpjlist : ∃ cur, hget s.heap pj = some (.hlist cur) := by
        cases hpm with
        | atom _ v hv => rw [hnd] at hv; simp at hv
        | map _ _ b2 es2 bb cur h1a h2a hnone => rw [hnd] at h1a; simp at h1a
        | list _ _ its2 cur h1a h2a hnone => exact ⟨cur, h2a⟩
        | tup _ _ its2 js2 h1a h2a hnone hrec => rw [hnd] at h1a; simp at h1a
      obtain ⟨cur, hpjs⟩ := hpjlist
      obtain ⟨-, hevo1, -⟩ := (interpEvo σ hcl g1).2.2.1 s its (s1, js) hlf hc hsrci
      obtain ⟨cur1, hpjs1⟩ := hevo1.listKeep pj cur hpjs
      refine ⟨g1 + 1, setNode s1 pj (.hlist (cur1 ++ js)), ?_⟩
      simp [postMunchF, hsheap, hlf, hpjs1]
    | htup its =>
      have hpjtup : ∃ js, hget s.heap pj = some (.htup js) ∧
          ∀ n2 o p, its.get? n2 = some o → js.get? n2 = some p →
            PairMatch σ s.heap o p := by
        cases hpm with
        | atom _ v hv => rw [hnd] at hv; simp at hv
        | map _ _ b2 es2 bb cur h1a h2a hnone => rw [hnd] at h1a; simp at h1a
        | list _ _ its2 cur h1a h2a hnone => rw [hnd] at h1a; simp at h1a
        | tup _ _ its2 js h1a h2a hnone hrec =>
          rw [hnd] at h1a
          have hits : its2 = its := by
            injection h1a with h1
            injection h1 with h2
            exact h2.symm
          subst hits
          exact ⟨js, h2a, hrec⟩
      obtain ⟨js, hpjt, hrec⟩ := hpjtup
      have hqs : ∀ q ∈ js.zip its, (hget σ q.2).isSome = true ∧
          PairMatch σ s.heap q.2 q.1 := by
        intro q hq
        obtain ⟨n2, hq1, hq2⟩ := mem_zip_get? hq
        exact ⟨heapClosed_children hcl hnd q.2 (List.get?_mem hq2),
          hrec n2 q.2 q.1 hq2 hq1⟩
      have hbq : ∀ q ∈ js.zip its,
          (unseenCount σ s + 1) * (M + 1) + rank q.2 ≤ n - 1 := by
        intro q hq
        obtain ⟨n2, hq1, hq2⟩ := mem_zip_get? hq
        have hr : rank q.2 < rank i := hrank i its hnd q.2 (List.get?_mem hq2)
        omega
      obtain ⟨g1, s2, hpp⟩ := hpairsN s (js.zip its) hc hsp hqs hbq
      refine ⟨g1 + 1, s2, ?_⟩
      simp [postMunchF, hsheap, hpjt, hpp]
  have hpairs : ∀ ps s, GoodCfg σ s → SeenPM σ s →
      (∀ q ∈ ps, (hget σ q.2).isSome = true ∧ PairMatch σ s.heap q.2 q.1) →
      (∀ q ∈ ps, (unseenCount σ s + 1) * (M + 1) + rank q.2 ≤ n) →
      ∃ g s2, postPairsF g s ps = some s2 := by
    intro ps
    induction ps with
    | nil => intro s _ _ _ _; exact ⟨1, s, rfl⟩
    | cons q rest ihps =>
      intro s hc hsp hqs hb
      obtain ⟨p, o⟩ := q
      have hqo := hqs (p, o) (by simp)
      have hpj : PjOK σ p := pairMatch_pjok hqo.2
      obtain ⟨g1, s1, h1⟩ := hpost s p o hc hsp hqo.1 hqo.2 (hb (p, o) (by simp))
      obtain ⟨hc1, hevo1⟩ :=
        (interpEvo σ hcl g1).2.2.2.2.1 s p o s1 h1 hc hqo.1 hpj
      have hsp1 : SeenPM σ s1 :=
        (interpPM σ hcl g1).2.2.2.2.1 s p o s1 h1 hc hsp hqo.1 hpj
      have hu1 : unseenCount σ s1 ≤ unseenCount σ s := unseen_le_of_ext hevo1.seenExt
      have hqs1 : ∀ q ∈ rest, (hget σ q.2).isSome = true ∧
          PairMatch σ s1.heap q.2 q.1 := by
        intro q hq
        exact ⟨(hqs q (by simp [hq])).1, pairMatch_evo hevo1 (hqs q (by simp [hq])).2⟩
      have hb1 : ∀ q ∈ rest, (unseenCount σ s1 + 1) * (M + 1) + rank q.2 ≤ n := by
        intro q hq
        refine le_trans (Nat.add_le_add_right
          (Nat.mul_le_mul (by omega) (Nat.le_refl (M + 1))) _) (hb q (by simp [hq]))
      obtain ⟨g2, s2, h2⟩ := ihps s1 hc1 hsp1 hqs1 hb1
      refine ⟨max g1 g2 + 1, s2, ?_⟩
      have hm1 := postMunchF_mono_le (Nat.le_max_left g1 g2) h1
      have hm2 := postPairsF_mono_le (Nat.le_max_right g1 g2) h2
      simp [postPairsF, hm1, hm2]
  have hpre : ∀ s i, GoodCfg σ s → SeenPM σ s → (hget σ i).isSome = true →
      unseenCount σ s * (M + 1) + rank i ≤ n →
      ∃ g r, preMunchF g s i = some r := by
    intro s i hc hsp hi hb
    rcases Option.isSome_iff_exists.mp hi with ⟨nd, hnd⟩
    have hsheap : hget s.heap i = some nd := by rw [hc.srcPres i hi]; exact hnd
    cases nd with
    | hmap b es => exact ⟨1, allocNode s (.hmap true []), by simp [preMunchF, hsheap]⟩
    | hlist its => exact ⟨1, allocNode s (.hlist []), by simp [preMunchF, hsheap]⟩
    | hatom v => exact ⟨1, (s, i), by simp [preMunchF, hsheap]⟩
    | htup its =>
      cases hits : its with
      | nil =>
        refine ⟨2, allocNode s (.htup []), ?_⟩
        simp [preMunchF, hsheap, hits, listFoldF]
      | cons v0 vs0 =>
        have hr0 : rank v0 < rank i := hrank i its hnd v0 (by simp [hits])
        have hn1 : 1 ≤ n := by omega
        obtain ⟨-, -, hlistN, -⟩ := ihn (n - 1) (by omega)
        have hsrci : ∀ v ∈ its, (hget σ v).isSome = true := by
          intro v hv
          exact heapClosed_children hcl hnd v hv
        have hbits : ∀ v ∈ its, unseenCount σ s * (M + 1) + rank v ≤ n - 1 := by
          intro v hv
          have hr : rank v < rank i := hrank i its hnd v hv
          omega
        obtain ⟨g1, ⟨s1, js⟩, hlf⟩ := hlistN s its hc hsp hsrci hbits
        refine ⟨g1 + 1, allocNode s1 (.htup js), ?_⟩
        simp [preMunchF, hsheap, hlf]
  have hcyc : ∀ s i, GoodCfg σ s → SeenPM σ s → (hget σ i).isSome = true →
      unseenCount σ s * (M + 1) + rank i ≤ n →
      ∃ g r, munchCycF g s i = some r := by
    intro s i hc hsp hi hb
    cases hseen : nlook s.seen i with
    | some j => exact ⟨1, (s, j), by simp [munchCycF, hseen]⟩
    | none =>
      obtain ⟨g1, ⟨s1, j⟩, hpre1⟩ := hpre s i hc hsp hi hb
      obtain ⟨hc1, hevo1, hpj⟩ := (interpEvo σ hcl g1).2.1 s i (s1, j) hpre1 hc hi
      obtain ⟨hsp1, hpm1⟩ := (interpPM σ hcl g1).2.1 s i (s1, j) hpre1 hc hsp hi
      have hc2 : GoodCfg σ (registerSeen s1 i j) := register_good hc1 hi hpj
      have hsp2 : SeenPM σ (registerSeen s1 i j) := seenPM_register hsp1 hpm1
      have hpm2 : PairMatch σ (registerSeen s1 i j).heap i j := hpm1
      have hdec : unseenCount σ (registerSeen s1 i j) + 1 ≤ unseenCount σ s := by
        cases hs1i : nlook s1.seen i with
        | none =>
          have h1 : unseenCount σ (registerSeen s1 i j) < unseenCount σ s1 :=
            unseen_register_lt j hi hs1i
          have h2 : unseenCount σ s1 ≤ unseenCount σ s := unseen_le_of_ext hevo1.seenExt
          omega
        | some j0 =>
          have h1 : unseenCount σ s1 < unseenCount σ s :=
            unseen_lt_of_newly hi hevo1.seenExt hseen (by simp [hs1i])
          have h2 : unseenCount σ (registerSeen s1 i j) ≤ unseenCount σ s1 :=
            unseen_register_le s1 i j
          omega
      have hbpost : (unseenCount σ (registerSeen s1 i j) + 1) * (M + 1) + rank i ≤ n :=
        le_trans (Nat.add_le_add_right
          (Nat.mul_le_mul hdec (Nat.le_refl (M + 1))) _) hb
      obtain ⟨g2, s3, hpost1⟩ := hpost (registerSeen s1 i j) j i hc2 hsp2 hi hpm2 hbpost
      refine ⟨max g1 g2 + 1, (s3, j), ?_⟩
      have hp1 := preMunchF_mono_le (Nat.le_max_left g1 g2) hpre1
      have hp2 := postMunchF_mono_le (Nat.le_max_right g1 g2) hpost1
      simp [munchCycF, hseen, hp1, hp2]
  have hlist : ∀ vs s, GoodCfg σ s → SeenPM σ s →
      (∀ v ∈ vs, (hget σ v).isSome = true) →
      (∀ v ∈ vs, unseenCount σ s * (M + 1) + rank v ≤ n) →
      ∃ g r, listFoldF g s vs = some r := by
    intro vs
    induction vs with
    | nil => intro s _ _ _ _; exact ⟨1, (s, []), rfl⟩
    | cons v rest ihvs =>
      intro s hc hsp hsrc hb
      obtain ⟨g1, ⟨s1, j⟩, h1⟩ := hcyc s v hc hsp (hsrc v (by simp)) (hb v (by simp))
      obtain ⟨hc1, hevo1, -, -⟩ :=
        (interpEvo σ hcl g1).1 s v (s1, j) h1 hc (hsrc v (by simp))
      have hsp1 : SeenPM σ s1 :=
        ((interpPM σ hcl g1).1 s v (s1, j) h1 hc hsp (hsrc v (by simp))).1
      have hu1 : unseenCount σ s1 ≤ unseenCount σ s := unseen_le_of_ext hevo1.seenExt
      have hb1 : ∀ w ∈ rest, unseenCount σ s1 * (M + 1) + rank w ≤ n := by
        intro w hw
        refine le_trans (Nat.add_le_add_right
          (Nat.mul_le_mul hu1 (Nat.le_refl (M + 1))) _) (hb w (by simp [hw]))
      obtain ⟨g2, ⟨s2, js⟩, h2⟩ :=
        ihvs s1 hc1 hsp1 (fun w hw => hsrc w (by simp [hw])) hb1
      refine ⟨max g1 g2 + 1, (s2, j :: js), ?_⟩
      have hm1 := munchCycF_mono_le (Nat.le_max_left g1 g2) h1
      have hm2 := listFoldF_mono_le (Nat.le_max_right g1 g2) h2
      simp [listFoldF, hm1, hm2]
  have hmap : ∀ es s, GoodCfg σ s → SeenPM σ s →
      (∀ p ∈ es, (hget σ p.2).isSome = true) →
      (∀ p ∈ es, unseenCount σ s * (M + 1) + rank p.2 ≤ n) →
      ∃ g r, mapFoldF g s es = some r := by
    intro es
    induction es with
    | nil => intro s _ _ _ _; exact ⟨1, (s, []), rfl⟩
    | cons p rest ihes =>
      intro s hc hsp hsrc hb
      obtain ⟨k, v⟩ := p
      obtain ⟨g1, ⟨s1, j⟩, h1⟩ :=
        hcyc s v hc hsp (hsrc (k, v) (by simp)) (hb (k, v) (by simp))
      obtain ⟨hc1, hevo1, -, -⟩ :=
        (interpEvo σ hcl g1).1 s v (s1, j) h1 hc (hsrc (k, v) (by simp))
      have hsp1 : SeenPM σ s1 :=
        ((interpPM σ hcl g1).1 s v (s1, j) h1 hc hsp (hsrc (k, v) (by simp))).1
      have hu1 : unseenCount σ s1 ≤ unseenCount σ s := unseen_le_of_ext hevo1.seenExt
      have hb1 : ∀ q ∈ rest, unseenCount σ s1 * (M + 1) + rank q.2 ≤ n := by
        intro q hq
        refine le_trans (Nat.add_le_add_right
          (Nat.mul_le_mul hu1 (Nat.le_refl (M + 1))) _) (hb q (by simp [hq]))
      obtain ⟨g2, ⟨s2, prs⟩, h2⟩ :=
        ihes s1 hc1 hsp1 (fun q hq => hsrc q (by simp [hq])) hb1
      refine ⟨max g1 g2 + 1, (s2, (k, j) :: prs), ?_⟩
      have hm1 := munchCycF_mono_le (Nat.le_max_left g1 g2) h1
      have hm2 := mapFoldF_mono_le (Nat.le_max_right g1 g2) h2
      simp [mapFoldF, hm1, hm2]
  exact ⟨hcyc, hpre, fun s vs => hlist vs s, fun s es => hmap es s, hpost,
    fun s ps => hpairs ps s⟩

theorem interpSuff (σ : Heap) (hcl : heapClosed σ = true)
    (rank : Nat → Nat)
    (hrank : ∀ i its, hget σ i = some (.htup its) → ∀ j, j ∈ its → rank j < rank i)
    (M : Nat) (hM : ∀ i, (hget σ i).isSome = true → rank i ≤ M) :
    ∀ n : Nat, SuffAt σ rank M n := by
  have aux : ∀ n k, k < n → SuffAt σ rank M k := by
    intro n
    induction n with
    | zero => intro k hk; exact absurd hk (Nat.not_lt_zero k)
    | succ n ihk =>
      intro k hk
      rcases Nat.lt_succ_iff_lt_or_eq.mp hk with h | h
      · exact ihk k h
      · subst h
        exact interpSuffStep σ hcl rank hrank M hM k ihk
  intro n
  exact aux (n + 1) n (Nat.lt_succ_self n)

theorem foldl_natmax_le : ∀ (l : List Nat) (acc : Nat), acc ≤ l.foldl max acc := by
  intro l
  induction l with
  | nil => intro acc; exact Nat.le_refl _
  | cons a rest ih =>
    intro acc
    exact le_trans (Nat.le_max_left acc a) (ih (max acc a))

theorem foldl_natmax_mem : ∀ (l : List Nat) (acc x : Nat), x ∈ l → x ≤ l.foldl max acc := by
  intro l
  induction l with
  | nil => intro acc x hx; simp at hx
  | cons a rest ih =>
    intro acc x hx
    rcases List.mem_cons.mp hx with h | h
    · subst h
      exact le_trans (Nat.le_max_right acc x) (foldl_natmax_le rest (max acc x))
    · exact ih (max acc a) x h

/-- For any source heap that is closed and tuple-ranked (both true of
real Python object graphs), munchify succeeds on every source object
for some fuel. -/
theorem munchifyRun_total (σ : Heap) (hcl : heapClosed σ = true)
    (htr : TupleRanked σ) {r : Nat} (hisrc : (hget σ r).isSome = true) :
    ∃ g s2 j, munchifyRun σ r g = some (s2, j) := by
  obtain ⟨rank, hrank0⟩ := htr
  have hM : ∀ i, (hget σ i).isSome = true →
      rank i ≤ (σ.map (fun p => rank p.1)).foldl max 0 := by
    intro i hi
    rcases Option.isSome_iff_exists.mp hi with ⟨nd, hnd2⟩
    exact foldl_natmax_mem _ 0 (rank i) (List.mem_map.mpr ⟨(i, nd), hget_mem hnd2, rfl⟩)
  have hsp0 : SeenPM σ (initState σ) := by
    intro i j h
    exact Option.noConfusion h
  obtain ⟨g, ⟨s2, j⟩, hrun⟩ :=
    (interpSuff σ hcl rank hrank0 ((σ.map (fun p => rank p.1)).foldl max 0) hM
      (unseenCount σ (initState σ) * ((σ.map (fun p => rank p.1)).foldl max 0 + 1) +
        rank r)).1
      (initState σ) r (goodCfg_init σ) hsp0 hisrc (Nat.le_refl _)
  exact ⟨g, s2, j, hrun⟩

/-- C1: for every source mapping x (no duplicate keys, as in a real
dict) whose entry under "self" is x itself, inside any closed,
tuple-ranked object graph: munchify(x) terminates for some fuel, and
every successful run yields a Munch-tagged mapping whose "self" entry
is the result object itself — the same identity, not a copy. -/
theorem claim_C1_munchify_self_cycle (σ : Heap) (r : Nat) (b : Bool)
    (es : List (String × Nat))
    (hcl : heapClosed σ = true) (htr : TupleRanked σ)
    (hroot : hget σ r = some (.hmap b es))
    (hself : alook es "self" = some r)
    (hnd : nodupKeys (es.map Prod.fst) = true) :
    (∃ g s2 j, munchifyRun σ r g = some (s2, j)) ∧
    (∀ g s2 j, munchifyRun σ r g = some (s2, j) →
      ∃ es2, hget s2.heap j = some (.hmap true es2) ∧ alook es2 "self" = some j) := by
  constructor
  · exact munchifyRun_total σ hcl htr (by simp [hroot])
  · intro g s2 j hrun
    obtain ⟨s3, prs, cur, hkeys, hj, hpoint, hr3⟩ := munchifyRun_root_map σ hcl hroot hrun
    obtain ⟨n0, hn0⟩ := alook_get? hself
    obtain ⟨jv, hprs, hseenv⟩ := hpoint n0 "self" r hn0
    have hjv : jv = j := by
      rw [hr3] at hseenv
      injection hseenv with h
      exact h.symm
    subst hjv
    refine ⟨prs.foldl (fun d kv => dictWrite d kv.1 kv.2) cur, hj, ?_⟩
    have hndprs : nodupKeys (prs.map Prod.fst) = true := by rw [hkeys]; exact hnd
    rw [foldl_dictWrite_alook prs cur "self" hndprs,
      mem_alook_nodup hndprs (List.get?_mem hprs)]
    rfl

theorem claim_C1_witness :
    heapClosed [(0, HNode.hmap false [("self", 0)])] = true ∧
    TupleRanked [(0, HNode.hmap false [("self", 0)])] ∧
    ((∃ g s2 j, munchifyRun [(0, HNode.hmap false [("self", 0)])] 0 g = some (s2, j)) ∧
     (∀ g s2 j, munchifyRun [(0, HNode.hmap false [("self", 0)])] 0 g = some (s2, j) →
       ∃ es2, hget s2.heap j = some (.hmap true es2) ∧ alook es2 "self" = some j)) :=
  ⟨rfl,
   ⟨fun _ => 0, by
     intro i its h j hj
     exfalso
     have hm := hget_mem h
     simp at hm⟩,
   claim_C1_munchify_self_cycle [(0, HNode.hmap false [("self", 0)])] 0 false
     [("self", 0)] rfl
     ⟨fun _ => 0, by
       intro i its h j hj
       exfalso
       have hm := hget_mem h
       simp at hm⟩
     rfl rfl rfl⟩

/-- C3: for every source mapping (no duplicate keys) in which two keys
k1 and k2 reference the identical nested mapping object, inside any
closed, tuple-ranked object graph: munchify terminates for some fuel,
and every successful run yields a Munch-tagged mapping whose entries
under k1 and k2 are identical to each other — the same converted
object, not two independently-converted copies. -/
theorem claim_C3_shared_reference (σ : Heap) (r : Nat) (b : Bool)
    (es : List (String × Nat)) (k1 k2 : String) (v : Nat)
    (hcl : heapClosed σ = true) (htr : TupleRanked σ)
    (hroot : hget σ r = some (.hmap b es))
    (hk : k1 ≠ k2)
    (hv1 : alook es k1 = some v) (hv2 : alook es k2 = some v)
    (hvmap : ∃ bv esv, hget σ v = some (.hmap bv esv))
    (hnd : nodupKeys (es.map Prod.fst) = true) :
    (∃ g s2 j, munchifyRun σ r g = some (s2, j)) ∧
    (∀ g s2 j, munchifyRun σ r g = some (s2, j) →
      ∃ es2 jv, hget s2.heap j = some (.hmap true es2) ∧
        alook es2 k1 = some jv ∧ alook es2 k2 = some jv) := by
  constructor
  · exact munchifyRun_total σ hcl htr (by simp [hroot])
  · intro g s2 j hrun
    obtain ⟨s3, prs, cur, hkeys, hj, hpoint, hr3⟩ := munchifyRun_root_map σ hcl hroot hrun
    obtain ⟨n1, hn1⟩ := alook_get? hv1
    obtain ⟨n2, hn2⟩ := alook_get? hv2
    obtain ⟨jv1, hprs1, hseen1⟩ := hpoint n1 k1 v hn1
    obtain ⟨jv2, hprs2, hseen2⟩ := hpoint n2 k2 v hn2
    have hjv : jv2 = jv1 := by
      rw [hseen1] at hseen2
      injection hseen2 with h
      exact h.symm
    rw [hjv] at hprs2
    have hndprs : nodupKeys (prs.map Prod.fst) = true := by rw [hkeys]; exact hnd
    refine ⟨prs.foldl (fun d kv => dictWrite d kv.1 kv.2) cur, jv1, hj, ?_, ?_⟩
    · rw [foldl_dictWrite_alook prs cur k1 hndprs,
        mem_alook_nodup hndprs (List.get?_mem hprs1)]
      rfl
    · rw [foldl_dictWrite_alook prs cur k2 hndprs,
        mem_alook_nodup hndprs (List.get?_mem hprs2)]
      rfl

theorem claim_C3_witness :
    heapClosed [(0, HNode.hmap false [("a", 1), ("b", 1)]), (1, HNode.hmap false [])]
      = true ∧
    TupleRanked [(0, HNode.hmap false [("a", 1), ("b", 1)]), (1, HNode.hmap false [])] ∧
    ("a" : String) ≠ "b" ∧
    ((∃ g s2 j, munchifyRun
        [(0, HNode.hmap false [("a", 1), ("b", 1)]), (1, HNode.hmap false [])] 0 g =
        some (s2, j)) ∧
     (∀ g s2 j, munchifyRun
        [(0, HNode.hmap false [("a", 1), ("b", 1)]), (1, HNode.hmap false [])] 0 g =
        some (s2, j) →
       ∃ es2 jv, hget s2.heap j = some (.hmap true es2) ∧
         alook es2 "a" = some jv ∧ alook es2 "b" = some jv)) :=
  ⟨rfl,
   ⟨fun _ => 0, by
     intro i its h j hj
     exfalso
     have hm := hget_mem h
     simp at hm⟩,
   by decide,
   claim_C3_shared_reference
     [(0, HNode.hmap false [("a", 1), ("b", 1)]), (1, HNode.hmap false [])] 0 false
     [("a", 1), ("b", 1)] "a" "b" 1 rfl
     ⟨fun _ => 0, by
       intro i its h j hj
       exfalso
       have hm := hget_mem h
       simp at hm⟩
     rfl (by decide) rfl rfl ⟨false, [], rfl⟩ (by decide)⟩

end MunchSpec
